import Mathlib

/-!
Verification of the oracle-cryptanalysis engine of `cryptopals-rust`.

Bytes are modelled as natural numbers; where the Rust source relies on
`u8` wrap-around arithmetic this embedding writes the reduction `% 256`
explicitly.  Fallible Rust functions returning `Result` are embedded as
`Except String`.  The block cipher, PKCS padding, the oracles built from
them, and a few small helpers live in crates of this repository that are
not available here; those are modelled from the spec and carry a
`Modelled from the spec:` doc comment.  Everything else is translated
from `src/challenges/src/set2.rs`, `src/challenges/src/set6/*.rs` and
`src/serialize/src/lib.rs`.
-/

deriving instance DecidableEq for Except

namespace Cryptopals

/-- Block size of the cipher, `aes::BLOCK_SIZE` (AES-128 blocks). -/
def BLOCK_SIZE : ℕ := 16

/-- Fuel-driven worker for `chunks`; the fuel only forces structural
termination and is irrelevant once it reaches the list length. -/
def chunksF (k : ℕ) : ℕ → List α → List (List α)
  | 0, _ => []
  | _, [] => []
  | f + 1, a :: as => (a :: as).take k :: chunksF k f (as.drop (k - 1))

/-- Embedding of Rust `[T]::chunks(k)`: consecutive chunks of size `k`,
the last chunk possibly shorter.  (`chunks(0)` panics in Rust and is
never called; this embedding returns a junk value there.) -/
def chunks (k : ℕ) (l : List α) : List (List α) := chunksF k l.length l

/-- Slice `c[BLOCK_SIZE*j .. BLOCK_SIZE*(j+1)]` of a byte list, the
ciphertext block with index `j` (Rust `c[j*BLOCK_SIZE..(j+1)*BLOCK_SIZE]`,
truncated instead of panicking when out of range). -/
def slice (c : List ℕ) (j : ℕ) : List ℕ :=
  (c.drop (BLOCK_SIZE * j)).take BLOCK_SIZE

/-- Modelled from the spec: `aes::pad` (PKCS#7-style padding, §6
collaborator contract; the repository's `aes` crate is not in `src/`).
Appends `k - len % k` bytes of that same value, a full block when the
length is already a multiple of `k`.  This matches the repository's own
test data (`pad(b"YELLOW SUBMARINE", 20)` appends four bytes of 4). -/
def pad (u : List ℕ) (k : ℕ) : List ℕ :=
  u ++ List.replicate (k - u.length % k) (k - u.length % k)

/-- Modelled from the spec: ECB mode of the block-cipher collaborator
(§6, glossary: "ECB encrypts each block independently").  `E` is the
keyed single-block permutation. -/
def ecbEncrypt (E : List ℕ → List ℕ) (pt : List ℕ) : List ℕ :=
  ((chunks BLOCK_SIZE pt).map E).flatten

/-- Modelled from the spec: the deterministic prefix-and-suffix oracle
(§4.1): encrypts `prefix ++ input ++ suffix` under ECB with PKCS
padding and a fixed key.  The repository's `prefix_suffix_oracles`
module is not in `src/`. -/
def padOracle (E : List ℕ → List ℕ) (pre suf : List ℕ) (input : List ℕ) : List ℕ :=
  ecbEncrypt E (pad (pre ++ input ++ suf) BLOCK_SIZE)

/-- Properties of the keyed block transform `E` that the attacks rely
on: it maps 16-byte blocks to 16-byte blocks and is injective on them
(a block cipher under a fixed key is a permutation of blocks). -/
structure BlockCipherOK (E : List ℕ → List ℕ) : Prop where
  len : ∀ b : List ℕ, b.length = BLOCK_SIZE → (E b).length = BLOCK_SIZE
  inj : ∀ b c : List ℕ, b.length = BLOCK_SIZE → c.length = BLOCK_SIZE →
    E b = E c → b = c

/-- Embeds `prefix_plus_suffix_length` (src/challenges/src/set2.rs
lines 93-110): probe input lengths 1..=16 for the first that changes
the output length; error when none does. -/
def pref_plus_suffix_length (enc : List ℕ → List ℕ) : Except String ℕ :=
  let initial := (enc []).length
  match (List.range' 1 BLOCK_SIZE).find?
      (fun i => decide ((enc (List.replicate i 0)).length ≠ initial)) with
  | some i => .ok (initial - i)
  | none => .error "length of oracle output did not change, something is wrong with the provided oracle"

/-- Embeds `prefix_blocks_count` (src/challenges/src/set2.rs lines
117-128): the index of the first differing ciphertext block for the
inputs `[0]` and `[1]`. -/
def pref_blocks_count (enc : List ℕ → List ℕ) : Except String ℕ :=
  match (List.zip (chunks BLOCK_SIZE (enc [0])) (chunks BLOCK_SIZE (enc [1]))).findIdx?
      (fun p => decide (p.1 ≠ p.2)) with
  | some r => .ok r
  | none => .error "no differing blocks found, something is wrong with the provided oracle"

/-- Embeds the closure `helper` inside `prefix_length`
(src/challenges/src/set2.rs lines 152-165): shrink a constant block of
byte `k` from the front and report the first step at which ciphertext
block `n` changes, defaulting to `BLOCK_SIZE`.  At step `i` the
previous query was `constant_block[i..]` and the current one is
`constant_block[i+1..]`. -/
def pref_length_helper (enc : List ℕ → List ℕ) (n : ℕ) (k : ℕ) : ℕ :=
  match (List.range BLOCK_SIZE).find? (fun i =>
    decide ((chunks BLOCK_SIZE (enc (List.replicate (BLOCK_SIZE - i) k))).get? n ≠
      (chunks BLOCK_SIZE (enc (List.replicate (BLOCK_SIZE - (i + 1)) k))).get? n)) with
  | some i => i
  | none => BLOCK_SIZE

/-- Embeds `prefix_length` (src/challenges/src/set2.rs lines 150-168). -/
def pref_length (enc : List ℕ → List ℕ) : Except String ℕ := do
  let n ← pref_blocks_count enc
  .ok (n * BLOCK_SIZE + min (pref_length_helper enc n 0) (pref_length_helper enc n 1))

/-- Embeds `suffix_length` (src/challenges/src/set2.rs lines 170-172).
Rust `usize` subtraction panics on underflow; `Nat` subtraction
truncates, the difference is irrelevant for oracles where the total
length dominates the prefix length. -/
def suffix_length (enc : List ℕ → List ℕ) : Except String ℕ := do
  let t ← pref_plus_suffix_length enc
  let p ← pref_length enc
  .ok (t - p)

/-- Modelled from the spec: `helper::ceil_div` (the `helper` crate is
not in `src/`).  Per §4.3: `ceil_div(n, k)` returns the ceiling
quotient together with the padding that completes `n` to a multiple of
`k`. -/
def ceil_div (a k : ℕ) : ℕ × ℕ :=
  ((a + k - 1) / k, (a + k - 1) / k * k - a)

/-- Embeds `uses_ecb` (src/challenges/src/set2.rs lines 84-91):
encrypt three identical blocks of zeros and compare the second and
third ciphertext blocks.  Rust indexes `blocks[0]` and `blocks[1]` of
the `skip(1).take(2)` chunk list; the embedding reads them with a
default. -/
def uses_ecb (enc : List ℕ → List ℕ) : Bool :=
  let blocks := ((chunks BLOCK_SIZE (enc (List.replicate (3 * BLOCK_SIZE) 0))).drop 1).take 2
  decide (blocks.getD 0 [] = blocks.getD 1 [])

/-- Modelled from the spec: `unstable_features::all_bytes` — all 256
byte values (§4.3 step 3: the order may prefer common text bytes but
must cover the full range; the crate is not in `src/`). -/
def allBytes : List ℕ := List.range 256

/-- Embeds the candidate-byte double loop of `decrypt_suffix`
(src/challenges/src/set2.rs lines 229-244).  State: suffix position
`i`, working buffer `input`, recovered `suffix`; `count` counts the
remaining positions.  When a candidate's target ciphertext block equals
the reference block, the byte is kept (`break` with the byte pushed);
when all 256 candidates fail the position is left as-is and the loop
moves on, exactly as the source does. -/
def suffix_loop (enc : List ℕ → List ℕ) (refs : List (List ℕ)) (pb : ℕ) :
    ℕ → ℕ → List ℕ → List ℕ → List ℕ
  | 0, _, _, suffix => suffix
  | count + 1, i, input, suffix =>
    let block := pb + i / BLOCK_SIZE
    let ls := i % BLOCK_SIZE
    match allBytes.find? (fun u =>
        decide (slice (refs.getD ls []) block = slice (enc ((input ++ [u]).drop ls)) block)) with
    | some u => suffix_loop enc refs pb count (i + 1) (input ++ [u]) (suffix ++ [u])
    | none => suffix_loop enc refs pb count (i + 1) input suffix

/-- Embeds `decrypt_suffix` (src/challenges/src/set2.rs lines 206-246):
probe prefix and suffix lengths, precompute the sixteen reference
ciphertexts, then recover the suffix byte by byte. -/
def decrypt_suffix (enc : List ℕ → List ℕ) : Except String (List ℕ) := do
  let pl ← pref_length enc
  let pq := ceil_div pl BLOCK_SIZE
  let sl ← suffix_length enc
  let input : List ℕ := List.replicate (pq.2 + BLOCK_SIZE - 1) 0
  let refs := (List.range BLOCK_SIZE).map (fun ls => enc (input.drop ls))
  .ok (suffix_loop enc refs pq.1 sl 0 input [])

/-- The identity block transform, the simplest block cipher
satisfying `BlockCipherOK`; used to instantiate theorems on concrete
oracles. -/
def idCipher : List ℕ → List ℕ := id

/-- A deterministic oracle that is not of the shape the byte-at-a-time
attack assumes: it behaves like a suffix-only oracle with suffix `[7]`
for all length probes, but byte 15 of its output is the attacker input
length, so the target-block comparison of `decrypt_suffix` fails for
every candidate byte. -/
def badOracle (input : List ℕ) : List ℕ :=
  let pt := pad (input ++ [7]) BLOCK_SIZE
  (pt.take 15 ++ [input.length]) ++ pt.drop 16

/-- Result type of the panic-aware embedding of `decrypt_suffix`:
`ok` and `error` mirror Rust `Result`, `crash` is a panic (an
out-of-range range index such as `c[16..32]` of a 16-byte vector). -/
inductive DSResult where
  | ok (v : List ℕ)
  | error (e : String)
  | crash
deriving DecidableEq

/-- Checked block slice: `some` of ciphertext block `j` of `c` when the
whole range `BLOCK_SIZE*j .. BLOCK_SIZE*(j+1)` lies inside `c`, `none`
when Rust `c[j*BLOCK_SIZE..(j+1)*BLOCK_SIZE]` would panic. -/
def sliceP (c : List ℕ) (j : ℕ) : Option (List ℕ) :=
  if BLOCK_SIZE * (j + 1) ≤ c.length then some (slice c j) else none

/-- Embeds the inner `for u in all_bytes()` loop of `decrypt_suffix`
(src/challenges/src/set2.rs lines 233-243) with panics modelled: for
each candidate `u` in order, block `block` of the reference ciphertext
`refv` is compared with block `block` of `enc((input ++ [u])[ls..])`;
either range index out of bounds is a panic (`none`).  `some (some u)`
is a `break` with `u` matched, `some none` is falling through all 256
candidates without a match. -/
def cand_loop (enc : List ℕ → List ℕ) (refv : List ℕ) (block : ℕ)
    (input : List ℕ) (ls : ℕ) : List ℕ → Option (Option ℕ)
  | [] => some none
  | u :: us =>
    match sliceP refv block, sliceP (enc ((input ++ [u]).drop ls)) block with
    | some a, some b =>
      if a = b then some (some u) else cand_loop enc refv block input ls us
    | _, _ => none

/-- Panic-aware embedding of the outer `for i in 0..suffix_len` loop of
`decrypt_suffix` (src/challenges/src/set2.rs lines 229-244), same state
threading as `suffix_loop`: a matched candidate is pushed to `input`
and `suffix`, a fall-through leaves both unchanged and moves to the
next position, a panic in the candidate loop crashes. -/
def suffix_loopP (enc : List ℕ → List ℕ) (refs : List (List ℕ)) (pb : ℕ) :
    ℕ → ℕ → List ℕ → List ℕ → DSResult
  | 0, _, _, suffix => .ok suffix
  | count + 1, i, input, suffix =>
    match cand_loop enc (refs.getD (i % BLOCK_SIZE) []) (pb + i / BLOCK_SIZE)
        input (i % BLOCK_SIZE) allBytes with
    | none => .crash
    | some none => suffix_loopP enc refs pb count (i + 1) input suffix
    | some (some u) => suffix_loopP enc refs pb count (i + 1) (input ++ [u]) (suffix ++ [u])

/-- Embeds `decrypt_suffix` (src/challenges/src/set2.rs lines 206-246)
with the range-index panics of lines 235-237 modelled as `crash`
instead of truncated: same length probing and reference ciphertexts as
`decrypt_suffix`, then the panic-aware loop.  (The slices
`input[left_shift..]` and the index `reference_ciphertexts[left_shift]`
are always in range: `input` holds at least `BLOCK_SIZE - 1` bytes and
the reference list holds `BLOCK_SIZE` entries.) -/
def decrypt_suffixP (enc : List ℕ → List ℕ) : DSResult :=
  match pref_length enc with
  | .error e => .error e
  | .ok pl =>
    match suffix_length enc with
    | .error e => .error e
    | .ok sl =>
      suffix_loopP enc
        ((List.range BLOCK_SIZE).map (fun ls =>
          enc ((List.replicate ((ceil_div pl BLOCK_SIZE).2 + BLOCK_SIZE - 1) 0).drop ls)))
        (ceil_div pl BLOCK_SIZE).1 sl 0
        (List.replicate ((ceil_div pl BLOCK_SIZE).2 + BLOCK_SIZE - 1) 0) []

/-! Bleichenbacher interval engine, src/challenges/src/set6/challenge47_48.rs. -/

/-- Modelled from the spec: `BigNumExt::floor_quotient` (§6
arbitrary-precision collaborator, "ceiling/floor quotient"; the
`bignum` crate is not in `src/`).  Mathematical floor of `a / b`. -/
def floor_quotient (a b : ℤ) : ℤ := ⌊(a : ℚ) / (b : ℚ)⌋

/-- Modelled from the spec: `BigNumExt::ceil_quotient`, mathematical
ceiling of `a / b`. -/
def ceil_quotient (a b : ℤ) : ℤ := ⌈(a : ℚ) / (b : ℚ)⌉

/-- The integers `lo, lo+1, ..., hi` (empty when `hi < lo`); embeds the
Rust pattern `let mut r = lo; while r <= hi { ...; r = r + 1 }`. -/
def intRange (lo hi : ℤ) : List ℤ :=
  (List.range (hi + 1 - lo).toNat).map (fun (t : ℕ) => lo + (t : ℤ))

/-- Embeds the body of the interval-update loop for one interval
`(a, b)` of `M_prev` (src/challenges/src/set6/challenge47_48.rs lines
84-94): enumerate `r` from `ceil((a*si - 3B + 1)/n)` to
`floor((b*si - 2B)/n)` and emit the clamped interval for each. -/
def intervalCandidates (n B si : ℤ) (ab : ℤ × ℤ) : List (ℤ × ℤ) :=
  let a := ab.1
  let b := ab.2
  let rlo := ceil_quotient (a * si - 3 * B + 1) n
  let rhi := floor_quotient (b * si - 2 * B) n
  (intRange rlo rhi).map (fun r =>
    (max a (ceil_quotient (2 * B + r * n) si), min b (floor_quotient (3 * B - 1 + r * n) si)))

/-- Lexicographic order on integer pairs, the `Ord` instance Rust uses
to `sort` a `Vec<(BigNum, BigNum)>`. -/
def pairLe (x y : ℤ × ℤ) : Bool :=
  decide (x.1 < y.1 ∨ (x.1 = y.1 ∧ x.2 ≤ y.2))

/-- Insertion sort by `pairLe`; embeds `Mi.sort()` (a stable sort by
the total lexicographic order, and any two stable sorts by the same
total order agree). -/
def insertSorted (x : ℤ × ℤ) : List (ℤ × ℤ) → List (ℤ × ℤ)
  | [] => [x]
  | y :: ys => if pairLe x y then x :: y :: ys else y :: insertSorted x ys

/-- Embeds `Mi.sort()`. -/
def sortPairs : List (ℤ × ℤ) → List (ℤ × ℤ)
  | [] => []
  | x :: xs => insertSorted x (sortPairs xs)

/-- Embeds `Mi.dedup()`: remove consecutive repeated elements. -/
def dedupConsec : List (ℤ × ℤ) → List (ℤ × ℤ)
  | [] => []
  | [x] => [x]
  | x :: y :: r => if x = y then dedupConsec (y :: r) else x :: dedupConsec (y :: r)

/-- One full interval update of the Bleichenbacher engine
(src/challenges/src/set6/challenge47_48.rs lines 83-97): collect the
candidate intervals from every interval of `M_prev` for the accepted
multiplier `si`, then sort and dedup. -/
def intervalStep (n B si : ℤ) (Mprev : List (ℤ × ℤ)) : List (ℤ × ℤ) :=
  dedupConsec (sortPairs (Mprev.flatMap (intervalCandidates n B si)))

/-- Membership of the plaintext integer in the union of a candidate
interval set (§3: closed intervals). -/
def memIntervals (m : ℤ) (M : List (ℤ × ℤ)) : Prop :=
  ∃ I ∈ M, I.1 ≤ m ∧ m ≤ I.2

instance (m : ℤ) (M : List (ℤ × ℤ)) : Decidable (memIntervals m M) := by
  unfold memIntervals
  infer_instance

/-- Acceptance of multiplier `s` by the wrapped padding oracle: RSA is
multiplicative, so the decryption of `c * encrypt_pub(s)` is
`m * s mod n`, and the oracle (src/challenges/src/set6/challenge47_48.rs
lines 28-31, 45) accepts exactly when that value lies in `[2B, 3B)`. -/
def acceptsMS (n B m s : ℤ) : Prop :=
  2 * B ≤ (m * s) % n ∧ (m * s) % n < 3 * B

instance (n B m s : ℤ) : Decidable (acceptsMS n B m s) := by
  unfold acceptsMS
  infer_instance

/-- Embeds the decision oracle of challenge 47/48
(src/challenges/src/set6/challenge47_48.rs lines 28-31): decrypt the
submitted ciphertext and test whether shifting right by `8*(k-2)` bits
leaves exactly 2.  The RSA decryption itself is the external
collaborator of §6, abstracted as `decryptFn`. -/
def bleichOracle (decryptFn : ℕ → ℕ) (k : ℕ) (c : ℕ) : Bool :=
  decide (Nat.shiftRight (decryptFn c) (8 * (k - 2)) = 2)

/-- The bound `B = 2^(8(k-2))` of the Bleichenbacher engine
(src/challenges/src/set6/challenge47_48.rs line 24). -/
def bleichB (k : ℕ) : ℕ := 2 ^ (8 * (k - 2))

/-! Challenge 41 server, src/challenges/src/set6/challenge41.rs. -/

/-- The challenge-41 server state: a stored plaintext, its stored
ciphertext, and the RSA private decryption operation (the RSA keypair
is the external collaborator of §6, abstracted as `decryptFn`). -/
structure Server41 where
  cleartext : ℕ
  ciphertext : ℕ
  decryptFn : ℕ → ℕ

/-- Embeds `Server::decrypt` (src/challenges/src/set6/challenge41.rs
lines 40-46).  The Rust method takes `&self`; the embedding threads the
state explicitly and returns it alongside the result so that
state-invariance is statable. -/
def server_decrypt (s : Server41) (ct : ℕ) : Option ℕ × Server41 :=
  (if ct = s.ciphertext then none else some (s.decryptFn ct), s)

/-! Serialization, src/serialize/src/lib.rs. -/

/-- The `TO_BASE64` table (src/serialize/src/lib.rs lines 18-27). -/
def TO_BASE64 : List Char :=
  ['A', 'B', 'C', 'D', 'E', 'F', 'G', 'H', 'I', 'J',
   'K', 'L', 'M', 'N', 'O', 'P', 'Q', 'R', 'S', 'T',
   'U', 'V', 'W', 'X', 'Y', 'Z', 'a', 'b', 'c', 'd',
   'e', 'f', 'g', 'h', 'i', 'j', 'k', 'l', 'm', 'n',
   'o', 'p', 'q', 'r', 's', 't', 'u', 'v', 'w', 'x',
   'y', 'z', '0', '1', '2', '3', '4', '5', '6', '7',
   '8', '9', '+', '/']

/-- The `FROM_BASE64` table (src/serialize/src/lib.rs lines 30-40),
ordered by its second entry. -/
def FROM_BASE64 : List (ℕ × Char) :=
  [(62, '+'), (63, '/'),
   (52, '0'), (53, '1'), (54, '2'), (55, '3'), (56, '4'), (57, '5'), (58, '6'), (59, '7'),
   (60, '8'), (61, '9'),
   (0, 'A'), (1, 'B'), (2, 'C'), (3, 'D'), (4, 'E'), (5, 'F'), (6, 'G'), (7, 'H'),
   (8, 'I'), (9, 'J'), (10, 'K'), (11, 'L'), (12, 'M'), (13, 'N'), (14, 'O'), (15, 'P'),
   (16, 'Q'), (17, 'R'), (18, 'S'), (19, 'T'), (20, 'U'), (21, 'V'), (22, 'W'), (23, 'X'),
   (24, 'Y'), (25, 'Z'), (26, 'a'), (27, 'b'), (28, 'c'), (29, 'd'), (30, 'e'), (31, 'f'),
   (32, 'g'), (33, 'h'), (34, 'i'), (35, 'j'), (36, 'k'), (37, 'l'), (38, 'm'), (39, 'n'),
   (40, 'o'), (41, 'p'), (42, 'q'), (43, 'r'), (44, 's'), (45, 't'), (46, 'u'), (47, 'v'),
   (48, 'w'), (49, 'x'), (50, 'y'), (51, 'z')]

/-- Embeds `u8_from_base64` (src/serialize/src/lib.rs lines 178-183).
The source runs `binary_search_by` on `FROM_BASE64`, which is sorted by
its char component, so the result is the unique entry with that char;
the embedding looks it up directly. -/
def u8_from_base64 (c : Char) : Option ℕ :=
  (FROM_BASE64.find? (fun e => decide (e.2 = c))).map (fun e => e.1)

/-- Embeds `u8_to_base64` (src/serialize/src/lib.rs lines 160-163).
Every caller passes a value `≤ 63` (the source asserts this), so the
out-of-range default is never read. -/
def u8_to_base64 (u : ℕ) : Char := TO_BASE64.getD u 'A'

/-- Embeds `block_to_base64` (src/serialize/src/lib.rs lines 165-176).
Bytes are below 256, so none of the `u8` operations here wrap:
`a >> 2 = a / 4`, `a % 4 * 16 + (b >> 4) ≤ 63`, `c & 0x3f = c % 64`. -/
def block_to_base64 (block : List ℕ) : List Char :=
  match block with
  | [a, b, c] =>
    [u8_to_base64 (a / 4), u8_to_base64 (a % 4 * 16 + b / 16),
     u8_to_base64 (b % 16 * 4 + c / 64), u8_to_base64 (c % 64)]
  | [a, b] =>
    [u8_to_base64 (a / 4), u8_to_base64 (a % 4 * 16 + b / 16),
     u8_to_base64 (b % 16 * 4), u8_to_base64 0]
  | [a] =>
    [u8_to_base64 (a / 4), u8_to_base64 (a % 4 * 16),
     u8_to_base64 0, u8_to_base64 0]
  | _ => []

/-- Embeds `to_base64` of `impl Serialize for [u8]`
(src/serialize/src/lib.rs lines 48-64): encode 3-byte chunks, then
replace the surplus trailing characters by `=` padding.  The source's
`pop`/`push('=')` sequence is written out per remainder class. -/
def to_base64 (u : List ℕ) : List Char :=
  let base := ((chunks 3 u).map block_to_base64).flatten
  if u.length % 3 = 1 then base.dropLast.dropLast ++ ['=', '=']
  else if u.length % 3 = 2 then base.dropLast ++ ['=']
  else base

/-- Modelled from the spec: `char::from_digit(u, 16)` of the standard
library, producing a lowercase hex digit (callers pass `u < 16`). -/
def char_from_digit (v : ℕ) : Char :=
  if v < 10 then Char.ofNat (48 + v) else Char.ofNat (87 + v)

/-- Embeds `to_hex` of `impl Serialize for [u8]`
(src/serialize/src/lib.rs lines 66-73): split each byte into high and
low nibble and render each as a hex digit. -/
def to_hex (u : List ℕ) : List Char :=
  (u.flatMap (fun x => [x / 16, x % 16])).map char_from_digit

/-- Modelled from the spec: `char::to_digit(16)` of the standard
library, accepting both lowercase and uppercase hex digits. -/
def char_to_digit16 (c : Char) : Option ℕ :=
  if 48 ≤ c.toNat ∧ c.toNat ≤ 57 then some (c.toNat - 48)
  else if 97 ≤ c.toNat ∧ c.toNat ≤ 102 then some (c.toNat - 87)
  else if 65 ≤ c.toNat ∧ c.toNat ≤ 70 then some (c.toNat - 55)
  else none

/-- Embeds `u8_from_hex` (src/serialize/src/lib.rs lines 153-158). -/
def u8_from_hex (c : Char) : Option ℕ := char_to_digit16 c

/-- Embeds the digit-collection loops of `from_hex` and `from_base64`:
map a fallible digit parser over the characters, failing on the first
invalid one. -/
def parseDigits (f : Char → Option ℕ) (emsg : String) : List Char → Except String (List ℕ)
  | [] => .ok []
  | c :: cs =>
    match f c with
    | none => .error emsg
    | some d =>
      match parseDigits f emsg cs with
      | .ok r => .ok (d :: r)
      | .error e => .error e

/-- Embeds `from_hex` (src/serialize/src/lib.rs lines 141-151).  The
final map over digit pairs computes `(c[0] << 4) + c[1]`; digits are
below 16, so no `u8` wrap occurs. -/
def from_hex (s : List Char) : Except String (List ℕ) :=
  if s.length % 2 ≠ 0 then .error "input length needs to be multiple of 2"
  else
    match parseDigits u8_from_hex "not a valid hex string" s with
    | .error e => .error e
    | .ok digits => .ok ((chunks 2 digits).map (fun c => c.getD 0 0 * 16 + c.getD 1 0))

/-- Result of `from_base64`: an `Ok` value, an `Err`, or a Rust panic
(out-of-bounds index or arithmetic overflow), which is neither. -/
inductive B64Result where
  | ok (u : List ℕ)
  | error (e : String)
  | crash
deriving DecidableEq

/-- Embeds the decode loop of `from_base64` (src/serialize/src/lib.rs
lines 95-109) over the 4-digit chunks.  Digits are table values `≤ 63`,
so `(b0 << 2) + (b1 >> 4)` and the other byte computations do not
overflow `u8`; the `u8` shifts are written with their explicit `% 256`
wrap.  A chunk of length 1 would make the source index `b[1]` out of
bounds, hence `crash` (unreachable from `from_base64`). -/
def b64DecodeChunks : List (List ℕ) → B64Result
  | [] => .ok []
  | b :: rest =>
    match b with
    | [b0, b1] =>
      if (b1 * 16) % 256 ≠ 0 then .error "input not padded with zero"
      else .ok [(b0 * 4) % 256 + b1 / 16]
    | [b0, b1, b2] =>
      if (b2 * 64) % 256 ≠ 0 then .error "input not padded with zero"
      else .ok [(b0 * 4) % 256 + b1 / 16, (b1 * 16) % 256 + b2 / 4]
    | [b0, b1, b2, b3] =>
      match b64DecodeChunks rest with
      | .ok u => .ok (((b0 * 4) % 256 + b1 / 16) :: ((b1 * 16) % 256 + b2 / 4) ::
          ((b2 * 64) % 256 + b3) :: u)
      | r => r
    | _ => .crash

/-- The count `n` of data characters computed by `from_base64`
(src/serialize/src/lib.rs lines 81-87): the string length minus the
number of trailing `=` probes that hit.  Callers guarantee a nonempty
string of length a multiple of 4, so the probed indices are in bounds
and the embedding's defaults are never read. -/
def b64Trim (s : List Char) : ℕ :=
  if s.getD (s.length - 1) ' ' = '='
  then (if s.getD (s.length - 2) ' ' = '=' then s.length - 2 else s.length - 1)
  else s.length

/-- Embeds `from_base64` (src/serialize/src/lib.rs lines 76-111).  On
the empty string the source evaluates `s.as_bytes()[n - 1]` with
`n = 0`, a panic (`usize` underflow / out-of-bounds index), embedded as
`crash`. -/
def from_base64 (s : List Char) : B64Result :=
  if s.length % 4 ≠ 0 then .error "input length needs to be multiple of 4"
  else if s = [] then .crash
  else
    match parseDigits u8_from_base64 "not a valid base64 string" (s.take (b64Trim s)) with
    | .error e => .error e
    | .ok digits => b64DecodeChunks (chunks 4 digits)

/-- The base64 characters of `to_base64 u` that carry data: the full
encoding minus the trailing characters that the source pops and
replaces by `=`.  Used to analyse the round trip. -/
def b64Chars : List ℕ → List Char
  | [] => []
  | [a] => [u8_to_base64 (a / 4), u8_to_base64 (a % 4 * 16)]
  | [a, b] => [u8_to_base64 (a / 4), u8_to_base64 (a % 4 * 16 + b / 16),
      u8_to_base64 (b % 16 * 4)]
  | a :: b :: c :: rest => block_to_base64 [a, b, c] ++ b64Chars rest

/-- The digit values encoded by `b64Chars`. -/
def b64Digits : List ℕ → List ℕ
  | [] => []
  | [a] => [a / 4, a % 4 * 16]
  | [a, b] => [a / 4, a % 4 * 16 + b / 16, b % 16 * 4]
  | a :: b :: c :: rest =>
    a / 4 :: (a % 4 * 16 + b / 16) :: (b % 16 * 4 + c / 64) :: c % 64 :: b64Digits rest

/-! ### Generic lemmas about `chunks`, `find?` and `findIdx?` -/

theorem chunksF_irrel (k : ℕ) :
    ∀ (f g : ℕ) (l : List α), l.length ≤ f → l.length ≤ g →
      chunksF k f l = chunksF k g l := by
  intro f
  induction f with
  | zero =>
    intro g l hf _
    have hnil : l = [] := List.eq_nil_of_length_eq_zero (by omega)
    subst hnil
    cases g <;> rfl
  | succ f ih =>
    intro g l hf hg
    cases l with
    | nil => cases g <;> rfl
    | cons a as =>
      cases g with
      | zero => simp at hg
      | succ g =>
        show (a :: as).take k :: chunksF k f (as.drop (k - 1)) =
          (a :: as).take k :: chunksF k g (as.drop (k - 1))
        congr 1
        exact ih g (as.drop (k - 1)) (by simp at hf ⊢; omega) (by simp at hg ⊢; omega)

theorem chunks_nil (k : ℕ) : chunks k ([] : List α) = [] := rfl

theorem chunks_cons (k : ℕ) (a : α) (as : List α) :
    chunks k (a :: as) = (a :: as).take k :: chunks k (as.drop (k - 1)) := by
  show (a :: as).take k :: chunksF k as.length (as.drop (k - 1)) =
    (a :: as).take k :: chunks k (as.drop (k - 1))
  congr 1
  exact chunksF_irrel k as.length (as.drop (k - 1)).length (as.drop (k - 1))
    (by simp) le_rfl

theorem chunks_cons_of_ne (k : ℕ) (l : List α) (hk : 0 < k) (hl : l ≠ []) :
    chunks k l = l.take k :: chunks k (l.drop k) := by
  match l with
  | [] => exact absurd rfl hl
  | a :: as =>
    rw [chunks_cons]
    have hd : as.drop (k - 1) = (a :: as).drop k := by
      cases k with
      | zero => omega
      | succ m => simp
    rw [hd]

theorem chunks_get? (k : ℕ) (hk : 0 < k) :
    ∀ (j : ℕ) (l : List α),
      (chunks k l).get? j =
        if k * j < l.length then some ((l.drop (k * j)).take k) else none := by
  intro j
  induction j with
  | zero =>
    intro l
    match l with
    | [] => simp [chunks_nil]
    | a :: as => simp [chunks_cons]
  | succ j ih =>
    intro l
    match l with
    | [] => simp [chunks_nil]
    | a :: as =>
      rw [chunks_cons_of_ne k _ hk (by simp)]
      have h1 : ((a :: as).take k :: chunks k ((a :: as).drop k)).get? (j + 1) =
          (chunks k ((a :: as).drop k)).get? j := rfl
      rw [h1, ih]
      have hlen : ((a :: as).drop k).length = (a :: as).length - k := by
        simp
      rw [hlen]
      have hmul : k * (j + 1) = k + k * j := by ring
      have hdd : ((a :: as).drop k).drop (k * j) = (a :: as).drop (k * (j + 1)) := by
        rw [List.drop_drop, hmul]
      by_cases h : k * j < (a :: as).length - k
      · rw [if_pos h, if_pos (by simp at h ⊢; omega), hdd]
      · rw [if_neg h, if_neg (by simp at h ⊢; omega)]

theorem find?_range'_eq_some {p : ℕ → Bool} :
    ∀ (n s N : ℕ), s ≤ N → N < s + n →
      (∀ m, s ≤ m → m < N → p m = false) → p N = true →
      (List.range' s n).find? p = some N := by
  intro n
  induction n with
  | zero => intro s N h1 h2; omega
  | succ n ih =>
    intro s N h1 h2 hbef hN
    rw [List.range'_succ, List.find?_cons]
    rcases Nat.eq_or_lt_of_le h1 with heq | hlt
    · subst heq; rw [hN]
    · rw [hbef s le_rfl hlt]
      exact ih (s + 1) N hlt (by omega) (fun m hm hm2 => hbef m (by omega) hm2) hN

theorem find?_range'_none_ge {p : ℕ → Bool} :
    ∀ (n s ρ : ℕ), (∀ m, m < ρ → p m = false) →
      ∀ i, (List.range' s n).find? p = some i → ρ ≤ i := by
  intro n
  induction n with
  | zero => intro s ρ _ i h; simp at h
  | succ n ih =>
    intro s ρ hbef i h
    rw [List.range'_succ, List.find?_cons] at h
    by_cases hs : p s = true
    · rw [hs] at h
      simp at h
      subst h
      by_contra hc
      rw [hbef s (by omega)] at hs
      exact Bool.false_ne_true hs
    · rw [Bool.eq_false_iff.mpr hs] at h
      exact ih (s + 1) ρ hbef i h

theorem find?_eq_some_of_unique {p : α → Bool} (a : α) :
    ∀ l : List α, a ∈ l → (∀ x, p x = true ↔ x = a) → l.find? p = some a := by
  intro l
  induction l with
  | nil => intro h; simp at h
  | cons b bs ih =>
    intro hmem huniq
    rw [List.find?_cons]
    by_cases hb : p b = true
    · rw [hb]
      rw [(huniq b).mp hb]
    · rw [Bool.eq_false_iff.mpr hb]
      have hab : a ∈ bs := by
        rcases List.mem_cons.mp hmem with h | h
        · exact absurd ((huniq b).mpr h.symm) hb
        · exact h
      exact ih hab huniq

theorem findIdx?_zip_firstDiff :
    ∀ (N : ℕ) (l1 l2 : List (List ℕ)),
      (∀ m x y, m < N → l1.get? m = some x → l2.get? m = some y → x = y) →
      (∀ x y, l1.get? N = some x → l2.get? N = some y → x ≠ y) →
      (∃ x, l1.get? N = some x) → (∃ y, l2.get? N = some y) →
      (l1.zip l2).findIdx? (fun p => decide (p.1 ≠ p.2)) = some N := by
  have main : ∀ (N : ℕ) (l1 l2 : List (List ℕ)) (start : ℕ),
      (∀ m x y, m < N → l1.get? m = some x → l2.get? m = some y → x = y) →
      (∀ x y, l1.get? N = some x → l2.get? N = some y → x ≠ y) →
      (∃ x, l1.get? N = some x) → (∃ y, l2.get? N = some y) →
      (l1.zip l2).findIdx? (fun p => decide (p.1 ≠ p.2)) start = some (start + N) := by
    intro N
    induction N with
    | zero =>
      intro l1 l2 start hbef hdiff hx hy
      obtain ⟨x, hx⟩ := hx
      obtain ⟨y, hy⟩ := hy
      cases l1 with
      | nil => simp at hx
      | cons x0 t1 =>
        cases l2 with
        | nil => simp at hy
        | cons y0 t2 =>
          simp at hx hy
          subst hx
          subst hy
          rw [List.zip_cons_cons, List.findIdx?_cons]
          rw [if_pos (by simp; exact hdiff x0 y0 rfl rfl)]
          simp
    | succ N ih =>
      intro l1 l2 start hbef hdiff hx hy
      obtain ⟨x, hx⟩ := hx
      obtain ⟨y, hy⟩ := hy
      cases l1 with
      | nil => simp at hx
      | cons x0 t1 =>
        cases l2 with
        | nil => simp at hy
        | cons y0 t2 =>
          rw [List.zip_cons_cons, List.findIdx?_cons]
          have heq : x0 = y0 := hbef 0 x0 y0 (by omega) rfl rfl
          rw [if_neg (by simp [heq])]
          have hrec := ih t1 t2 (start + 1)
            (fun m x y hm h1 h2 => hbef (m + 1) x y (by omega) h1 h2)
            (fun x y h1 h2 => hdiff x y h1 h2) ⟨x, hx⟩ ⟨y, hy⟩
          rw [hrec]
          congr 1
          omega
  intro N l1 l2 hbef hdiff hx hy
  have := main N l1 l2 0 hbef hdiff hx hy
  rwa [Nat.zero_add] at this

/-! ### Padding and ECB block lemmas -/

theorem pad_length (u : List ℕ) :
    (pad u BLOCK_SIZE).length = BLOCK_SIZE * (u.length / BLOCK_SIZE) + BLOCK_SIZE := by
  simp only [pad, BLOCK_SIZE, List.length_append, List.length_replicate]
  have h := Nat.div_add_mod u.length 16
  have h2 : u.length % 16 < 16 := Nat.mod_lt _ (by norm_num)
  omega

theorem pad_length_dvd (u : List ℕ) : BLOCK_SIZE ∣ (pad u BLOCK_SIZE).length := by
  rw [pad_length]
  exact ⟨u.length / BLOCK_SIZE + 1, by ring⟩

theorem ecbEncrypt_cons (E : List ℕ → List ℕ) (pt : List ℕ) (hne : pt ≠ []) :
    ecbEncrypt E pt = E (pt.take BLOCK_SIZE) ++ ecbEncrypt E (pt.drop BLOCK_SIZE) := by
  unfold ecbEncrypt
  rw [chunks_cons_of_ne BLOCK_SIZE pt (by norm_num [BLOCK_SIZE]) hne]
  rfl

theorem ecb_length (E : List ℕ → List ℕ)
    (hE : ∀ b : List ℕ, b.length = BLOCK_SIZE → (E b).length = BLOCK_SIZE) :
    ∀ (N : ℕ) (pt : List ℕ), pt.length = BLOCK_SIZE * N →
      (ecbEncrypt E pt).length = pt.length := by
  intro N
  induction N with
  | zero =>
    intro pt h
    have hnil : pt = [] := List.eq_nil_of_length_eq_zero (by omega)
    subst hnil
    simp [ecbEncrypt, chunks_nil]
  | succ N ih =>
    intro pt h
    have hne : pt ≠ [] := by
      intro hc
      subst hc
      simp [BLOCK_SIZE] at h
    rw [ecbEncrypt_cons E pt hne, List.length_append]
    have htake : (pt.take BLOCK_SIZE).length = BLOCK_SIZE := by
      simp only [List.length_take, BLOCK_SIZE] at *
      omega
    have hdrop : (pt.drop BLOCK_SIZE).length = BLOCK_SIZE * N := by
      simp only [List.length_drop, BLOCK_SIZE] at *
      omega
    rw [hE _ htake, ih _ hdrop, hdrop]
    simp only [BLOCK_SIZE] at *
    omega

theorem slice_ecb (E : List ℕ → List ℕ)
    (hE : ∀ b : List ℕ, b.length = BLOCK_SIZE → (E b).length = BLOCK_SIZE) :
    ∀ (j : ℕ) (pt : List ℕ), BLOCK_SIZE ∣ pt.length → BLOCK_SIZE * (j + 1) ≤ pt.length →
      slice (ecbEncrypt E pt) j = E ((pt.drop (BLOCK_SIZE * j)).take BLOCK_SIZE) := by
  intro j
  induction j with
  | zero =>
    intro pt _ hle
    have hne : pt ≠ [] := by
      intro hc
      subst hc
      simp [BLOCK_SIZE] at hle
    have hlen : (E (pt.take BLOCK_SIZE)).length = BLOCK_SIZE := by
      apply hE
      simp only [List.length_take, BLOCK_SIZE] at *
      omega
    rw [ecbEncrypt_cons E pt hne]
    unfold slice
    simp only [Nat.mul_zero, List.drop_zero]
    rw [List.take_append_of_le_length (le_of_eq hlen.symm),
      List.take_of_length_le (le_of_eq hlen)]
  | succ j ih =>
    intro pt hdvd hle
    obtain ⟨N, hN⟩ := hdvd
    have hne : pt ≠ [] := by
      intro hc
      subst hc
      simp [BLOCK_SIZE] at hle
    have hlen : (E (pt.take BLOCK_SIZE)).length = BLOCK_SIZE := by
      apply hE
      simp only [List.length_take, BLOCK_SIZE] at *
      omega
    rw [ecbEncrypt_cons E pt hne]
    unfold slice
    have hstep : BLOCK_SIZE * (j + 1) = (E (pt.take BLOCK_SIZE)).length + BLOCK_SIZE * j := by
      rw [hlen]
      ring
    nth_rewrite 1 [hstep]
    rw [List.drop_append]
    have hdvd2 : BLOCK_SIZE ∣ (pt.drop BLOCK_SIZE).length := by
      refine ⟨N - 1, ?_⟩
      simp only [List.length_drop, BLOCK_SIZE] at *
      omega
    have hle2 : BLOCK_SIZE * (j + 1) ≤ (pt.drop BLOCK_SIZE).length := by
      simp only [List.length_drop, BLOCK_SIZE] at *
      omega
    have ihh := ih (pt.drop BLOCK_SIZE) hdvd2 hle2
    unfold slice at ihh
    rw [ihh, List.drop_drop]
    have harg : BLOCK_SIZE + BLOCK_SIZE * j = BLOCK_SIZE * (j + 1) := by ring
    rw [harg]

theorem pad_block_inside (w : List ℕ) (j : ℕ) (h : BLOCK_SIZE * (j + 1) ≤ w.length) :
    ((pad w BLOCK_SIZE).drop (BLOCK_SIZE * j)).take BLOCK_SIZE =
      (w.drop (BLOCK_SIZE * j)).take BLOCK_SIZE := by
  unfold pad
  simp only [BLOCK_SIZE] at *
  rw [List.drop_append_of_le_length (by omega)]
  rw [List.take_append_of_le_length (by simp; omega)]

theorem padOracle_length (E : List ℕ → List ℕ)
    (hE : ∀ b : List ℕ, b.length = BLOCK_SIZE → (E b).length = BLOCK_SIZE)
    (pre suf inp : List ℕ) :
    (padOracle E pre suf inp).length =
      BLOCK_SIZE * ((pre.length + inp.length + suf.length) / BLOCK_SIZE) + BLOCK_SIZE := by
  unfold padOracle
  rw [ecb_length E hE ((pre ++ inp ++ suf).length / BLOCK_SIZE + 1) _
    (by rw [pad_length]; ring), pad_length]
  simp [Nat.add_assoc]

theorem padOracle_slice (E : List ℕ → List ℕ)
    (hE : ∀ b : List ℕ, b.length = BLOCK_SIZE → (E b).length = BLOCK_SIZE)
    (pre suf inp : List ℕ) (j : ℕ)
    (hj : BLOCK_SIZE * (j + 1) ≤ (pad (pre ++ inp ++ suf) BLOCK_SIZE).length) :
    slice (padOracle E pre suf inp) j =
      E (((pad (pre ++ inp ++ suf) BLOCK_SIZE).drop (BLOCK_SIZE * j)).take BLOCK_SIZE) := by
  unfold padOracle
  exact slice_ecb E hE j _ (pad_length_dvd _) hj

/-! ### Claim C5: the Bleichenbacher decision oracle -/

theorem div_pow_eq_two_iff (x t : ℕ) :
    x / 2 ^ t = 2 ↔ 2 * 2 ^ t ≤ x ∧ x < 3 * 2 ^ t := by
  have hB : 0 < 2 ^ t := Nat.pos_pow_of_pos t (by norm_num)
  constructor
  · intro h
    constructor
    · have := (Nat.le_div_iff_mul_le hB).mp (le_of_eq h.symm)
      omega
    · have h3 : x / 2 ^ t < 3 := by omega
      have := (Nat.div_lt_iff_lt_mul hB).mp h3
      omega
  · intro ⟨h1, h2⟩
    have hlo : 2 ≤ x / 2 ^ t := (Nat.le_div_iff_mul_le hB).mpr (by omega)
    have hhi : x / 2 ^ t < 3 := (Nat.div_lt_iff_lt_mul hB).mpr (by omega)
    omega

/-- C5: the decision oracle accepts a ciphertext iff the RSA-decrypted
integer lies in the half-open interval `[2B, 3B)` with
`B = 2^(8(k-2))`: the right-shift comparison of
src/challenges/src/set6/challenge47_48.rs lines 28-31 is exactly the
interval test. -/
theorem claim_C5 (decryptFn : ℕ → ℕ) (k c : ℕ) :
    bleichOracle decryptFn k c = true ↔
      2 * bleichB k ≤ decryptFn c ∧ decryptFn c < 3 * bleichB k := by
  unfold bleichOracle bleichB
  rw [decide_eq_true_eq]
  have h : Nat.shiftRight (decryptFn c) (8 * (k - 2)) =
      decryptFn c / 2 ^ (8 * (k - 2)) := Nat.shiftRight_eq_div_pow _ _
  rw [h]
  exact div_pow_eq_two_iff (decryptFn c) (8 * (k - 2))

/-! ### Claim C9: the challenge-41 server's decrypt -/

/-- C9: `Server::decrypt` rejects exactly the stored ciphertext,
returns the RSA decryption on every other input, and leaves the server
state unchanged (src/challenges/src/set6/challenge41.rs lines 40-46). -/
theorem claim_C9 (s : Server41) (ct : ℕ) :
    ((server_decrypt s ct).1 = none ↔ ct = s.ciphertext) ∧
      (ct ≠ s.ciphertext → (server_decrypt s ct).1 = some (s.decryptFn ct)) ∧
      (server_decrypt s ct).2 = s := by
  unfold server_decrypt
  by_cases h : ct = s.ciphertext
  · simp [h]
  · simp [h]

/-- Witness for C9 at a concrete server state and query. -/
theorem claim_C9_witness :
    (3 : ℕ) ≠ (10 : ℕ) ∧
      (server_decrypt ⟨5, 10, fun x => x + 1⟩ 3).1 = some 4 := by
  refine ⟨by decide, ?_⟩
  exact (claim_C9 ⟨5, 10, fun x => x + 1⟩ 3).2.1 (by decide)

/-! ### Claim C7: prefix_plus_suffix_length -/

theorem idCipher_ok : BlockCipherOK idCipher := by
  constructor
  · intro b h
    exact h
  · intro b c _ _ h
    exact h

theorem pps_padOracle (E : List ℕ → List ℕ)
    (hElen : ∀ b : List ℕ, b.length = BLOCK_SIZE → (E b).length = BLOCK_SIZE)
    (pre suf : List ℕ) :
    pref_plus_suffix_length (padOracle E pre suf) = .ok (pre.length + suf.length) := by
  have hlen : ∀ inp : List ℕ, (padOracle E pre suf inp).length =
      BLOCK_SIZE * ((pre.length + inp.length + suf.length) / BLOCK_SIZE) + BLOCK_SIZE :=
    fun inp => padOracle_length E hElen pre suf inp
  have hi0 : 1 ≤ BLOCK_SIZE - (pre.length + suf.length) % BLOCK_SIZE ∧
      BLOCK_SIZE - (pre.length + suf.length) % BLOCK_SIZE ≤ BLOCK_SIZE := by
    simp only [BLOCK_SIZE]
    omega
  have hfind : (List.range' 1 BLOCK_SIZE).find?
      (fun i => decide ((padOracle E pre suf (List.replicate i 0)).length ≠
        (padOracle E pre suf []).length)) =
        some (BLOCK_SIZE - (pre.length + suf.length) % BLOCK_SIZE) := by
    apply find?_range'_eq_some BLOCK_SIZE 1 _ hi0.1 (by simp only [BLOCK_SIZE] at *; omega)
    · intro m hm1 hm2
      simp only [decide_eq_false_iff_not, Decidable.not_not, hlen, List.length_replicate,
        List.length_nil]
      simp only [BLOCK_SIZE] at *
      omega
    · simp only [decide_eq_true_eq, hlen, List.length_replicate, List.length_nil]
      simp only [BLOCK_SIZE] at *
      omega
  simp only [pref_plus_suffix_length]
  rw [hfind]
  simp only [hlen [], List.length_nil]
  congr 1
  simp only [BLOCK_SIZE] at *
  omega

/-- C7: `prefix_plus_suffix_length` errors exactly when no input length
in `1..=BLOCK_SIZE` changes the output length; otherwise it returns the
initial output length minus the smallest such increment; and on a
PKCS-padding oracle this equals the total hidden prefix-plus-suffix
length (src/challenges/src/set2.rs lines 93-110). -/
theorem claim_C7 (O : List ℕ → List ℕ) (E : List ℕ → List ℕ) (hE : BlockCipherOK E)
    (pre suf : List ℕ) :
    ((∃ e, pref_plus_suffix_length O = .error e) ↔
      ∀ i, 1 ≤ i → i ≤ BLOCK_SIZE →
        (O (List.replicate i 0)).length = (O []).length) ∧
    (∀ i0, 1 ≤ i0 → i0 ≤ BLOCK_SIZE →
      (O (List.replicate i0 0)).length ≠ (O []).length →
      (∀ m, 1 ≤ m → m < i0 → (O (List.replicate m 0)).length = (O []).length) →
      pref_plus_suffix_length O = .ok ((O []).length - i0)) ∧
    pref_plus_suffix_length (padOracle E pre suf) =
      .ok (pre.length + suf.length) := by
  refine ⟨?_, ?_, ?_⟩
  · unfold pref_plus_suffix_length
    cases hf : (List.range' 1 BLOCK_SIZE).find?
        (fun i => decide ((O (List.replicate i 0)).length ≠ (O []).length)) with
    | none =>
      simp only [hf]
      constructor
      · intro _ i h1 h2
        have hmem : i ∈ List.range' 1 BLOCK_SIZE := by
          rw [List.mem_range'_1]
          omega
        have := List.find?_eq_none.mp hf i hmem
        simp at this
        exact this
      · intro _
        exact ⟨_, rfl⟩
    | some i =>
      simp only [hf]
      constructor
      · intro ⟨e, he⟩
        exact absurd he (by simp)
      · intro hall
        have hp := List.find?_some hf
        have hmem := List.mem_of_find?_eq_some hf
        rw [List.mem_range'_1] at hmem
        simp only [decide_eq_true_eq] at hp
        exact absurd (hall i (by omega) (by simp [BLOCK_SIZE] at hmem ⊢; omega)) hp
  · intro i0 h1 h2 hne hbef
    have hfind : (List.range' 1 BLOCK_SIZE).find?
        (fun i => decide ((O (List.replicate i 0)).length ≠ (O []).length)) = some i0 := by
      apply find?_range'_eq_some BLOCK_SIZE 1 i0 h1 (by simp [BLOCK_SIZE] at h2 ⊢; omega)
      · intro m hm1 hm2
        simp only [decide_eq_false_iff_not, Decidable.not_not]
        exact hbef m hm1 hm2
      · simp only [decide_eq_true_eq]
        exact hne
    simp only [pref_plus_suffix_length, hfind]
  · exact pps_padOracle E hE.len pre suf

/-- Witness for C7 on a concrete padding oracle with prefix length 1
and suffix length 2. -/
theorem claim_C7_witness :
    pref_plus_suffix_length (padOracle idCipher [1] [2, 3]) = .ok 3 :=
  (claim_C7 (padOracle idCipher [1] [2, 3]) idCipher idCipher_ok [1] [2, 3]).2.2

/-! ### Claim C6: uses_ecb -/

theorem drop1_take2_getD (l : List (List ℕ)) (d : List ℕ) :
    ((l.drop 1).take 2).getD 0 d = (l.get? 1).getD d ∧
      ((l.drop 1).take 2).getD 1 d = (l.get? 2).getD d := by
  match l with
  | [] => simp [List.getD]
  | [a] => simp [List.getD]
  | [a, b] => simp [List.getD]
  | a :: b :: c :: t => simp [List.getD]

theorem uses_ecb_iff (O : List ℕ → List ℕ)
    (hlen48 : 3 * BLOCK_SIZE ≤ (O (List.replicate (3 * BLOCK_SIZE) 0)).length) :
    uses_ecb O = true ↔
      slice (O (List.replicate (3 * BLOCK_SIZE) 0)) 1 =
        slice (O (List.replicate (3 * BLOCK_SIZE) 0)) 2 := by
  have h1 : (chunks BLOCK_SIZE (O (List.replicate (3 * BLOCK_SIZE) 0))).get? 1 =
      some (slice (O (List.replicate (3 * BLOCK_SIZE) 0)) 1) := by
    rw [chunks_get? BLOCK_SIZE (by norm_num [BLOCK_SIZE]) 1]
    rw [if_pos (by simp only [BLOCK_SIZE] at *; omega)]
    rfl
  have h2 : (chunks BLOCK_SIZE (O (List.replicate (3 * BLOCK_SIZE) 0))).get? 2 =
      some (slice (O (List.replicate (3 * BLOCK_SIZE) 0)) 2) := by
    rw [chunks_get? BLOCK_SIZE (by norm_num [BLOCK_SIZE]) 2]
    rw [if_pos (by simp only [BLOCK_SIZE] at *; omega)]
    rfl
  simp only [uses_ecb, decide_eq_true_eq]
  rw [(drop1_take2_getD _ []).1, (drop1_take2_getD _ []).2, h1, h2]
  simp

theorem replicate_block_of_middle (pre suf : List ℕ) (m : ℕ)
    (h1 : pre.length ≤ m) (h2 : m + BLOCK_SIZE ≤ pre.length + 3 * BLOCK_SIZE) :
    ((pre ++ List.replicate (3 * BLOCK_SIZE) 0 ++ suf).drop m).take BLOCK_SIZE =
      List.replicate BLOCK_SIZE 0 := by
  rw [List.append_assoc]
  have hm : m = pre.length + (m - pre.length) := by omega
  rw [hm, List.drop_append]
  rw [List.drop_append_of_le_length (by simp only [List.length_replicate, BLOCK_SIZE] at *; omega)]
  rw [List.drop_replicate]
  rw [List.take_append_of_le_length (by simp only [List.length_replicate, BLOCK_SIZE] at *; omega)]
  rw [List.take_replicate]
  congr 1
  simp only [BLOCK_SIZE] at *
  omega

/-- C6: `uses_ecb` returns true exactly when the second and third
ciphertext blocks of the all-zero test input agree, and it returns true
on every ECB padding oracle whose prefix fits in one block
(src/challenges/src/set2.rs lines 84-91). -/
theorem claim_C6 (O : List ℕ → List ℕ) (E : List ℕ → List ℕ) (hE : BlockCipherOK E)
    (pre suf : List ℕ)
    (hlen48 : 3 * BLOCK_SIZE ≤ (O (List.replicate (3 * BLOCK_SIZE) 0)).length)
    (hpre : pre.length ≤ BLOCK_SIZE) :
    (uses_ecb O = true ↔
      slice (O (List.replicate (3 * BLOCK_SIZE) 0)) 1 =
        slice (O (List.replicate (3 * BLOCK_SIZE) 0)) 2) ∧
    uses_ecb (padOracle E pre suf) = true := by
  constructor
  · exact uses_ecb_iff O hlen48
  · have hElen := hE.len
    have hw : (pre ++ List.replicate (3 * BLOCK_SIZE) 0 ++ suf).length =
        pre.length + 3 * BLOCK_SIZE + suf.length := by
      simp [Nat.add_assoc]
    have hpadlen : BLOCK_SIZE * (2 + 1) ≤
        (pad (pre ++ List.replicate (3 * BLOCK_SIZE) 0 ++ suf) BLOCK_SIZE).length := by
      rw [pad_length, hw]
      simp only [BLOCK_SIZE] at *
      omega
    have hb1 : slice (padOracle E pre suf (List.replicate (3 * BLOCK_SIZE) 0)) 1 =
        E (List.replicate BLOCK_SIZE 0) := by
      rw [padOracle_slice E hElen pre suf _ 1 (by simp only [BLOCK_SIZE] at *; omega)]
      rw [pad_block_inside _ 1 (by rw [hw]; simp only [BLOCK_SIZE] at *; omega)]
      rw [replicate_block_of_middle pre suf (BLOCK_SIZE * 1)
        (by simp only [BLOCK_SIZE] at *; omega) (by simp only [BLOCK_SIZE] at *; omega)]
    have hb2 : slice (padOracle E pre suf (List.replicate (3 * BLOCK_SIZE) 0)) 2 =
        E (List.replicate BLOCK_SIZE 0) := by
      rw [padOracle_slice E hElen pre suf _ 2 hpadlen]
      rw [pad_block_inside _ 2 (by rw [hw]; simp only [BLOCK_SIZE] at *; omega)]
      rw [replicate_block_of_middle pre suf (BLOCK_SIZE * 2)
        (by simp only [BLOCK_SIZE] at *; omega) (by simp only [BLOCK_SIZE] at *; omega)]
    have hlenO : 3 * BLOCK_SIZE ≤
        (padOracle E pre suf (List.replicate (3 * BLOCK_SIZE) 0)).length := by
      rw [padOracle_length E hElen]
      simp only [List.length_replicate, BLOCK_SIZE] at *
      omega
    rw [uses_ecb_iff _ hlenO, hb1, hb2]

/-- Witness for C6 on a concrete ECB oracle with a two-byte prefix. -/
theorem claim_C6_witness : uses_ecb (padOracle idCipher [1, 2] [9]) = true :=
  (claim_C6 (padOracle idCipher [1, 2] [9]) idCipher idCipher_ok [1, 2] [9]
    (by decide) (by decide)).2

/-! ### Claim C4: prefix_length and suffix_length on padding oracles -/

theorem padOracle_chunks_get? (E : List ℕ → List ℕ)
    (hElen : ∀ b : List ℕ, b.length = BLOCK_SIZE → (E b).length = BLOCK_SIZE)
    (pre suf inp : List ℕ) (m : ℕ) :
    (chunks BLOCK_SIZE (padOracle E pre suf inp)).get? m =
      if BLOCK_SIZE * m < (pad (pre ++ inp ++ suf) BLOCK_SIZE).length
      then some (E (((pad (pre ++ inp ++ suf) BLOCK_SIZE).drop (BLOCK_SIZE * m)).take BLOCK_SIZE))
      else none := by
  have hpos : 0 < BLOCK_SIZE := by norm_num [BLOCK_SIZE]
  have hctlen : (padOracle E pre suf inp).length =
      (pad (pre ++ inp ++ suf) BLOCK_SIZE).length := by
    unfold padOracle
    exact ecb_length E hElen ((pre ++ inp ++ suf).length / BLOCK_SIZE + 1) _
      (by rw [pad_length]; ring)
  rw [chunks_get? BLOCK_SIZE hpos m, hctlen]
  by_cases h : BLOCK_SIZE * m < (pad (pre ++ inp ++ suf) BLOCK_SIZE).length
  · rw [if_pos h, if_pos h]
    have hdvd := pad_length_dvd (pre ++ inp ++ suf)
    have hle : BLOCK_SIZE * (m + 1) ≤ (pad (pre ++ inp ++ suf) BLOCK_SIZE).length := by
      obtain ⟨q, hq⟩ := hdvd
      rw [hq] at h ⊢
      simp only [BLOCK_SIZE] at h ⊢
      omega
    have := padOracle_slice E hElen pre suf inp m hle
    unfold slice at this
    rw [this]
  · rw [if_neg h, if_neg h]

theorem pref_blocks_count_padOracle (E : List ℕ → List ℕ) (hE : BlockCipherOK E)
    (pre suf : List ℕ) :
    pref_blocks_count (padOracle E pre suf) = .ok (pre.length / BLOCK_SIZE) := by
  have hElen := hE.len
  have hinj := hE.inj
  -- the plaintext block of a one-byte query, below the first differing block
  have hblock : ∀ (b : ℕ) (m : ℕ), BLOCK_SIZE * (m + 1) ≤ pre.length →
      ((pad (pre ++ [b] ++ suf) BLOCK_SIZE).drop (BLOCK_SIZE * m)).take BLOCK_SIZE =
        (pre.drop (BLOCK_SIZE * m)).take BLOCK_SIZE := by
    intro b m hm
    rw [pad_block_inside _ m (by simp only [List.length_append, List.length_cons,
      List.length_nil, BLOCK_SIZE] at *; omega)]
    rw [List.append_assoc]
    rw [List.drop_append_of_le_length (by simp only [BLOCK_SIZE] at *; omega)]
    rw [List.take_append_of_le_length (by simp only [List.length_drop, BLOCK_SIZE] at *; omega)]
  -- the block at index pre.length / BLOCK_SIZE contains the query byte
  have hget : ∀ b : ℕ,
      (((pad (pre ++ [b] ++ suf) BLOCK_SIZE).drop
          (BLOCK_SIZE * (pre.length / BLOCK_SIZE))).take BLOCK_SIZE).get?
        (pre.length % BLOCK_SIZE) = some b := by
    intro b
    rw [List.get?_take (by simp only [BLOCK_SIZE]; omega)]
    rw [List.get?_drop]
    have hidx : BLOCK_SIZE * (pre.length / BLOCK_SIZE) + pre.length % BLOCK_SIZE =
        pre.length := by
      simp only [BLOCK_SIZE]
      omega
    rw [hidx]
    unfold pad
    rw [List.append_assoc, List.append_assoc]
    rw [List.get?_append_right le_rfl]
    simp
  have hcond : ∀ (b : ℕ) (m : ℕ), BLOCK_SIZE * m < (pad (pre ++ [b] ++ suf) BLOCK_SIZE).length
      ↔ m < (pre.length + 1 + suf.length) / BLOCK_SIZE + 1 := by
    intro b m
    rw [pad_length]
    simp only [List.length_append, List.length_cons, List.length_nil, BLOCK_SIZE]
    omega
  have hfind := findIdx?_zip_firstDiff (pre.length / BLOCK_SIZE)
    (chunks BLOCK_SIZE (padOracle E pre suf [0]))
    (chunks BLOCK_SIZE (padOracle E pre suf [1]))
    (by
      intro m x y hm hx hy
      rw [padOracle_chunks_get? E hElen pre suf [0] m] at hx
      rw [padOracle_chunks_get? E hElen pre suf [1] m] at hy
      rw [if_pos ((hcond 0 m).mpr (by simp only [BLOCK_SIZE] at *; omega))] at hx
      rw [if_pos ((hcond 1 m).mpr (by simp only [BLOCK_SIZE] at *; omega))] at hy
      have hmle : BLOCK_SIZE * (m + 1) ≤ pre.length := by
        simp only [BLOCK_SIZE] at *
        omega
      rw [hblock 0 m hmle] at hx
      rw [hblock 1 m hmle] at hy
      rw [← Option.some_inj, ← hx, ← hy])
    (by
      intro x y hx hy
      rw [padOracle_chunks_get? E hElen pre suf [0] _] at hx
      rw [padOracle_chunks_get? E hElen pre suf [1] _] at hy
      rw [if_pos ((hcond 0 _).mpr (by simp only [BLOCK_SIZE]; omega))] at hx
      rw [if_pos ((hcond 1 _).mpr (by simp only [BLOCK_SIZE]; omega))] at hy
      intro hxy
      have hlen0 : (((pad (pre ++ [0] ++ suf) BLOCK_SIZE).drop
          (BLOCK_SIZE * (pre.length / BLOCK_SIZE))).take BLOCK_SIZE).length = BLOCK_SIZE := by
        rw [List.length_take, List.length_drop, pad_length]
        simp only [List.length_append, List.length_cons, List.length_nil, BLOCK_SIZE]
        omega
      have hlen1 : (((pad (pre ++ [1] ++ suf) BLOCK_SIZE).drop
          (BLOCK_SIZE * (pre.length / BLOCK_SIZE))).take BLOCK_SIZE).length = BLOCK_SIZE := by
        rw [List.length_take, List.length_drop, pad_length]
        simp only [List.length_append, List.length_cons, List.length_nil, BLOCK_SIZE]
        omega
      have heq : ((pad (pre ++ [0] ++ suf) BLOCK_SIZE).drop
          (BLOCK_SIZE * (pre.length / BLOCK_SIZE))).take BLOCK_SIZE =
        ((pad (pre ++ [1] ++ suf) BLOCK_SIZE).drop
          (BLOCK_SIZE * (pre.length / BLOCK_SIZE))).take BLOCK_SIZE := by
        apply hinj _ _ hlen0 hlen1
        rw [← Option.some_inj, hx, hy, hxy]
      have h0 := hget 0
      rw [heq, hget 1] at h0
      simp at h0)
    (by
      refine ⟨E (((pad (pre ++ [0] ++ suf) BLOCK_SIZE).drop
        (BLOCK_SIZE * (pre.length / BLOCK_SIZE))).take BLOCK_SIZE), ?_⟩
      rw [padOracle_chunks_get? E hElen pre suf [0] _]
      rw [if_pos ((hcond 0 _).mpr (by simp only [BLOCK_SIZE]; omega))])
    (by
      refine ⟨E (((pad (pre ++ [1] ++ suf) BLOCK_SIZE).drop
        (BLOCK_SIZE * (pre.length / BLOCK_SIZE))).take BLOCK_SIZE), ?_⟩
      rw [padOracle_chunks_get? E hElen pre suf [1] _]
      rw [if_pos ((hcond 1 _).mpr (by simp only [BLOCK_SIZE]; omega))])
  simp only [pref_blocks_count, hfind]

theorem take_append_exact {α : Type} (A B : List α) (t : ℕ) (h : A.length ≤ t) :
    (A ++ B).take t = A ++ B.take (t - A.length) := by
  have ht : t = A.length + (t - A.length) := by omega
  conv_lhs => rw [ht]
  rw [List.take_append]

theorem const_query_block (pre suf : List ℕ) (k m : ℕ)
    (hm : BLOCK_SIZE - pre.length % BLOCK_SIZE ≤ m) :
    ((pad (pre ++ List.replicate m k ++ suf) BLOCK_SIZE).drop
        (BLOCK_SIZE * (pre.length / BLOCK_SIZE))).take BLOCK_SIZE =
      pre.drop (BLOCK_SIZE * (pre.length / BLOCK_SIZE)) ++
        List.replicate (BLOCK_SIZE - pre.length % BLOCK_SIZE) k := by
  rw [pad_block_inside _ _ (by
    simp only [List.length_append, List.length_replicate, BLOCK_SIZE] at *
    omega)]
  rw [List.append_assoc]
  rw [List.drop_append_of_le_length (by simp only [BLOCK_SIZE]; omega)]
  rw [take_append_exact _ _ _ (by simp only [List.length_drop, BLOCK_SIZE]; omega)]
  congr 1
  have hlen : (pre.drop (BLOCK_SIZE * (pre.length / BLOCK_SIZE))).length =
      pre.length % BLOCK_SIZE := by
    simp only [List.length_drop, BLOCK_SIZE]
    omega
  rw [hlen]
  rw [List.take_append_of_le_length (by
    simp only [List.length_replicate, BLOCK_SIZE] at *
    omega)]
  rw [List.take_replicate]
  congr 1
  simp only [BLOCK_SIZE] at *
  omega

theorem const_query_block_short (pre suf : List ℕ) (k : ℕ) :
    ((pad (pre ++ List.replicate (BLOCK_SIZE - 1 - pre.length % BLOCK_SIZE) k ++ suf)
        BLOCK_SIZE).drop (BLOCK_SIZE * (pre.length / BLOCK_SIZE))).take BLOCK_SIZE =
      pre.drop (BLOCK_SIZE * (pre.length / BLOCK_SIZE)) ++
        List.replicate (BLOCK_SIZE - 1 - pre.length % BLOCK_SIZE) k ++ [suf.headD 1] := by
  cases suf with
  | nil =>
    rw [List.append_nil]
    have hw : (pre ++ List.replicate (BLOCK_SIZE - 1 - pre.length % BLOCK_SIZE) k).length =
        BLOCK_SIZE * (pre.length / BLOCK_SIZE) + (BLOCK_SIZE - 1) := by
      simp only [List.length_append, List.length_replicate, BLOCK_SIZE]
      omega
    have hpadv : BLOCK_SIZE -
        (pre ++ List.replicate (BLOCK_SIZE - 1 - pre.length % BLOCK_SIZE) k).length %
          BLOCK_SIZE = 1 := by
      rw [hw]
      simp only [BLOCK_SIZE]
      omega
    unfold pad
    rw [hpadv]
    rw [List.drop_append_of_le_length (by rw [hw]; simp only [BLOCK_SIZE]; omega)]
    rw [List.drop_append_of_le_length (by simp only [BLOCK_SIZE]; omega)]
    rw [List.take_of_length_le (by
      simp only [List.length_append, List.length_drop, List.length_replicate, BLOCK_SIZE]
      omega)]
    simp [List.append_assoc]
  | cons h0 t =>
    rw [pad_block_inside _ _ (by
      simp only [List.length_append, List.length_replicate, List.length_cons, BLOCK_SIZE]
      omega)]
    rw [List.append_assoc]
    rw [List.drop_append_of_le_length (by simp only [BLOCK_SIZE]; omega)]
    rw [take_append_exact _ _ _ (by simp only [List.length_drop, BLOCK_SIZE]; omega)]
    have hlen : (pre.drop (BLOCK_SIZE * (pre.length / BLOCK_SIZE))).length =
        pre.length % BLOCK_SIZE := by
      simp only [List.length_drop, BLOCK_SIZE]
      omega
    rw [hlen]
    rw [take_append_exact _ _ _ (by simp only [List.length_replicate, BLOCK_SIZE]; omega)]
    have h1 : BLOCK_SIZE - pre.length % BLOCK_SIZE -
        (List.replicate (BLOCK_SIZE - 1 - pre.length % BLOCK_SIZE) k).length = 1 := by
      simp only [List.length_replicate, BLOCK_SIZE]
      omega
    rw [h1]
    simp [List.append_assoc]

/-- The target-block content of query `constant_block[i..]` in the
`prefix_length` helper, for `i` at most the sub-block offset of the
prefix. -/
theorem helper_query_get? (E : List ℕ → List ℕ)
    (hElen : ∀ b : List ℕ, b.length = BLOCK_SIZE → (E b).length = BLOCK_SIZE)
    (pre suf : List ℕ) (k i : ℕ) (hi : i ≤ pre.length % BLOCK_SIZE) :
    (chunks BLOCK_SIZE (padOracle E pre suf (List.replicate (BLOCK_SIZE - i) k))).get?
        (pre.length / BLOCK_SIZE) =
      some (E (pre.drop (BLOCK_SIZE * (pre.length / BLOCK_SIZE)) ++
        List.replicate (BLOCK_SIZE - pre.length % BLOCK_SIZE) k)) := by
  rw [padOracle_chunks_get? E hElen]
  rw [if_pos (by
    rw [pad_length]
    simp only [List.length_append, List.length_replicate, BLOCK_SIZE] at *
    omega)]
  rw [const_query_block pre suf k (BLOCK_SIZE - i) (by simp only [BLOCK_SIZE] at *; omega)]

theorem pref_length_helper_ge (enc : List ℕ → List ℕ) (n k ρ : ℕ) (hρ : ρ ≤ BLOCK_SIZE)
    (hbef : ∀ i, i < ρ →
      (chunks BLOCK_SIZE (enc (List.replicate (BLOCK_SIZE - i) k))).get? n =
        (chunks BLOCK_SIZE (enc (List.replicate (BLOCK_SIZE - (i + 1)) k))).get? n) :
    ρ ≤ pref_length_helper enc n k := by
  unfold pref_length_helper
  split
  · rename_i i heq
    rw [List.range_eq_range'] at heq
    exact find?_range'_none_ge BLOCK_SIZE 0 ρ
      (fun m hm => decide_eq_false_iff_not.mpr (not_not_intro (hbef m hm))) i heq
  · exact hρ

theorem pref_length_helper_eq (enc : List ℕ → List ℕ) (n k N : ℕ) (hN : N < BLOCK_SIZE)
    (hbef : ∀ i, i < N →
      (chunks BLOCK_SIZE (enc (List.replicate (BLOCK_SIZE - i) k))).get? n =
        (chunks BLOCK_SIZE (enc (List.replicate (BLOCK_SIZE - (i + 1)) k))).get? n)
    (hat : (chunks BLOCK_SIZE (enc (List.replicate (BLOCK_SIZE - N) k))).get? n ≠
      (chunks BLOCK_SIZE (enc (List.replicate (BLOCK_SIZE - (N + 1)) k))).get? n) :
    pref_length_helper enc n k = N := by
  unfold pref_length_helper
  rw [List.range_eq_range']
  rw [find?_range'_eq_some BLOCK_SIZE 0 N (by omega) (by omega)
    (fun m _ hm => decide_eq_false_iff_not.mpr (not_not_intro (hbef m hm)))
    (decide_eq_true_eq.mpr hat)]

theorem helper_padOracle_ge (E : List ℕ → List ℕ)
    (hElen : ∀ b : List ℕ, b.length = BLOCK_SIZE → (E b).length = BLOCK_SIZE)
    (pre suf : List ℕ) (k : ℕ) :
    pre.length % BLOCK_SIZE ≤
      pref_length_helper (padOracle E pre suf) (pre.length / BLOCK_SIZE) k := by
  apply pref_length_helper_ge _ _ _ _ (by simp only [BLOCK_SIZE]; omega)
  intro i hi
  rw [helper_query_get? E hElen pre suf k i (by omega)]
  rw [helper_query_get? E hElen pre suf k (i + 1) (by omega)]

theorem helper_padOracle_eq (E : List ℕ → List ℕ) (hE : BlockCipherOK E)
    (pre suf : List ℕ) (k : ℕ) (hk : suf.headD 1 ≠ k) :
    pref_length_helper (padOracle E pre suf) (pre.length / BLOCK_SIZE) k =
      pre.length % BLOCK_SIZE := by
  have hElen := hE.len
  apply pref_length_helper_eq _ _ _ _ (by simp only [BLOCK_SIZE]; omega)
  · intro i hi
    rw [helper_query_get? E hElen pre suf k i (by omega)]
    rw [helper_query_get? E hElen pre suf k (i + 1) (by omega)]
  · rw [helper_query_get? E hElen pre suf k (pre.length % BLOCK_SIZE) le_rfl]
    have hc : BLOCK_SIZE - (pre.length % BLOCK_SIZE + 1) =
        BLOCK_SIZE - 1 - pre.length % BLOCK_SIZE := by omega
    rw [hc]
    rw [padOracle_chunks_get? E hElen]
    rw [if_pos (by
      rw [pad_length]
      simp only [List.length_append, List.length_replicate, BLOCK_SIZE]
      omega)]
    rw [const_query_block_short pre suf k]
    intro heq
    rw [Option.some_inj] at heq
    have htail : (pre.drop (BLOCK_SIZE * (pre.length / BLOCK_SIZE))).length =
        pre.length % BLOCK_SIZE := by
      simp only [List.length_drop, BLOCK_SIZE]
      omega
    have hb := hE.inj _ _
      (by
        rw [List.length_append, htail, List.length_replicate]
        simp only [BLOCK_SIZE]
        omega)
      (by
        rw [List.length_append, List.length_append, htail, List.length_replicate]
        simp only [List.length_cons, List.length_nil, BLOCK_SIZE]
        omega)
      heq
    have hg1 : (pre.drop (BLOCK_SIZE * (pre.length / BLOCK_SIZE)) ++
        List.replicate (BLOCK_SIZE - pre.length % BLOCK_SIZE) k).get? (BLOCK_SIZE - 1) =
        some k := by
      rw [List.get?_append_right (by rw [htail]; simp only [BLOCK_SIZE]; omega)]
      rw [htail]
      have hlt : BLOCK_SIZE - 1 - pre.length % BLOCK_SIZE <
          BLOCK_SIZE - pre.length % BLOCK_SIZE := by
        simp only [BLOCK_SIZE]
        omega
      rw [List.get?_eq_getElem?, List.getElem?_replicate, if_pos hlt]
    have hg2 : (pre.drop (BLOCK_SIZE * (pre.length / BLOCK_SIZE)) ++
        List.replicate (BLOCK_SIZE - 1 - pre.length % BLOCK_SIZE) k ++
          [suf.headD 1]).get? (BLOCK_SIZE - 1) = some (suf.headD 1) := by
      rw [List.get?_append_right (by
        simp only [List.length_append, List.length_replicate, htail]
        simp only [BLOCK_SIZE]
        omega)]
      have : BLOCK_SIZE - 1 - (pre.drop (BLOCK_SIZE * (pre.length / BLOCK_SIZE)) ++
          List.replicate (BLOCK_SIZE - 1 - pre.length % BLOCK_SIZE) k).length = 0 := by
        simp only [List.length_append, List.length_replicate, htail]
        simp only [BLOCK_SIZE]
        omega
      rw [this]
      rfl
    rw [hb] at hg1
    rw [hg2] at hg1
    rw [Option.some_inj] at hg1
    exact hk hg1

theorem min_helpers_padOracle (E : List ℕ → List ℕ) (hE : BlockCipherOK E)
    (pre suf : List ℕ) :
    min (pref_length_helper (padOracle E pre suf) (pre.length / BLOCK_SIZE) 0)
        (pref_length_helper (padOracle E pre suf) (pre.length / BLOCK_SIZE) 1) =
      pre.length % BLOCK_SIZE := by
  by_cases hy : suf.headD 1 = 0
  · have h1 := helper_padOracle_eq E hE pre suf 1 (by rw [hy]; norm_num)
    have h0 := helper_padOracle_ge E hE.len pre suf 0
    omega
  · have h0 := helper_padOracle_eq E hE pre suf 0 hy
    have h1 := helper_padOracle_ge E hE.len pre suf 1
    omega

theorem pref_length_padOracle (E : List ℕ → List ℕ) (hE : BlockCipherOK E)
    (pre suf : List ℕ) :
    pref_length (padOracle E pre suf) = .ok pre.length := by
  have hmin := min_helpers_padOracle E hE pre suf
  unfold pref_length
  rw [pref_blocks_count_padOracle E hE pre suf]
  show Except.ok (pre.length / BLOCK_SIZE * BLOCK_SIZE +
    min (pref_length_helper (padOracle E pre suf) (pre.length / BLOCK_SIZE) 0)
      (pref_length_helper (padOracle E pre suf) (pre.length / BLOCK_SIZE) 1)) =
    Except.ok pre.length
  rw [hmin]
  congr 1
  simp only [BLOCK_SIZE]
  omega

theorem suffix_length_padOracle (E : List ℕ → List ℕ) (hE : BlockCipherOK E)
    (pre suf : List ℕ) :
    suffix_length (padOracle E pre suf) = .ok suf.length := by
  unfold suffix_length
  rw [pps_padOracle E hE.len pre suf]
  show (do
    let p ← pref_length (padOracle E pre suf)
    Except.ok (pre.length + suf.length - p) : Except String ℕ) = Except.ok suf.length
  rw [pref_length_padOracle E hE pre suf]
  show Except.ok (pre.length + suf.length - pre.length) = Except.ok suf.length
  congr 1
  omega

/-- C4: on a deterministic ECB padding oracle with any prefix of length
`p < 2*BLOCK_SIZE` and suffix of length `s < 2*BLOCK_SIZE` (arbitrary
contents), `prefix_length` returns `Ok p` and `suffix_length` returns
`Ok s` (src/challenges/src/set2.rs lines 117-128, 150-168, 170-172). -/
theorem claim_C4 (E : List ℕ → List ℕ) (hE : BlockCipherOK E) (pre suf : List ℕ)
    (_hp : pre.length < 2 * BLOCK_SIZE) (_hs : suf.length < 2 * BLOCK_SIZE) :
    pref_length (padOracle E pre suf) = .ok pre.length ∧
      suffix_length (padOracle E pre suf) = .ok suf.length :=
  ⟨pref_length_padOracle E hE pre suf, suffix_length_padOracle E hE pre suf⟩

/-- Witness for C4 with prefix length 3 and suffix length 2. -/
theorem claim_C4_witness :
    pref_length (padOracle idCipher [5, 6, 7] [1, 2]) = .ok 3 ∧
      suffix_length (padOracle idCipher [5, 6, 7] [1, 2]) = .ok 2 :=
  claim_C4 idCipher idCipher_ok [5, 6, 7] [1, 2] (by decide) (by decide)

/-! ### Claim C1: decrypt_suffix on suffix-only oracles -/

theorem except_bind_ok {ε α β : Type} (a : α) (f : α → Except ε β) :
    ((Except.ok a : Except ε α) >>= f) = f a := rfl

theorem range_map_getD (f : ℕ → List ℕ) (n ls : ℕ) (h : ls < n) (d : List ℕ) :
    ((List.range n).map f).getD ls d = f ls := by
  rw [List.getD_eq_getElem?_getD, List.getElem?_map, List.getElem?_range h]
  rfl

theorem getD_of_lt (X : List ℕ) (i : ℕ) (h : i < X.length) :
    X[i]? = some (X.getD i 0) := by
  rw [List.getElem?_eq_getElem h, List.getD_eq_getElem?_getD, List.getElem?_eq_getElem h]
  rfl

theorem take_succ_getD (X : List ℕ) (i : ℕ) (h : i < X.length) :
    X.take (i + 1) = X.take i ++ [X.getD i 0] := by
  rw [List.take_succ, getD_of_lt X i h]
  rfl

/-- The reference ciphertext block that `decrypt_suffix` compares
against at suffix position `i`, for a suffix-only oracle: it is the
cipher image of the window of `0`-padding and suffix bytes ending at
the unknown byte `X[i]`. -/
theorem c1_ref_slice (E : List ℕ → List ℕ)
    (hElen : ∀ b : List ℕ, b.length = BLOCK_SIZE → (E b).length = BLOCK_SIZE)
    (X : List ℕ) (i : ℕ) (hi : i < X.length) :
    slice (padOracle E [] X (List.replicate (BLOCK_SIZE - 1 - i % BLOCK_SIZE) 0))
        (i / BLOCK_SIZE) =
      E (((List.replicate (BLOCK_SIZE - 1) 0 ++ X).drop i).take BLOCK_SIZE) := by
  rw [padOracle_slice E hElen [] X _ _ (by
    rw [pad_length]
    simp only [List.length_append, List.length_replicate, List.length_nil, BLOCK_SIZE] at *
    omega)]
  rw [List.nil_append]
  rw [pad_block_inside _ _ (by
    simp only [List.length_append, List.length_replicate, BLOCK_SIZE] at *
    omega)]
  congr 2
  have h1 : List.replicate (BLOCK_SIZE - 1 - i % BLOCK_SIZE) (0 : ℕ) ++ X =
      (List.replicate (BLOCK_SIZE - 1) (0 : ℕ) ++ X).drop (i % BLOCK_SIZE) := by
    rw [List.drop_append_of_le_length (by simp only [List.length_replicate, BLOCK_SIZE]; omega)]
    rw [List.drop_replicate]
  rw [h1, List.drop_drop]
  congr 1
  simp only [BLOCK_SIZE]
  omega

/-- The candidate ciphertext block that `decrypt_suffix` computes for
the trial byte `u` at suffix position `i`, for a suffix-only oracle. -/
theorem c1_guess_slice (E : List ℕ → List ℕ)
    (hElen : ∀ b : List ℕ, b.length = BLOCK_SIZE → (E b).length = BLOCK_SIZE)
    (X : List ℕ) (i u : ℕ) (hi : i < X.length) :
    slice (padOracle E [] X
        (((List.replicate (BLOCK_SIZE - 1) 0 ++ X.take i) ++ [u]).drop (i % BLOCK_SIZE)))
      (i / BLOCK_SIZE) =
      E ((((List.replicate (BLOCK_SIZE - 1) 0 ++ X).drop i).take (BLOCK_SIZE - 1)) ++ [u]) := by
  rw [padOracle_slice E hElen [] X _ _ (by
    rw [pad_length]
    simp only [List.length_append, List.length_replicate, List.length_take,
      List.length_cons, List.length_nil, List.length_drop, BLOCK_SIZE] at *
    omega)]
  rw [List.nil_append]
  rw [pad_block_inside _ _ (by
    simp only [List.length_append, List.length_replicate, List.length_take,
      List.length_cons, List.length_nil, List.length_drop, BLOCK_SIZE] at *
    omega)]
  rw [List.drop_append_of_le_length (by
    simp only [List.length_append, List.length_replicate, List.length_take,
      List.length_cons, List.length_nil, List.length_drop, BLOCK_SIZE] at *
    omega)]
  rw [List.take_append_of_le_length (by
    simp only [List.length_append, List.length_replicate, List.length_take,
      List.length_cons, List.length_nil, List.length_drop, BLOCK_SIZE] at *
    omega)]
  rw [List.take_of_length_le (by
    simp only [List.length_append, List.length_replicate, List.length_take,
      List.length_cons, List.length_nil, List.length_drop, BLOCK_SIZE] at *
    omega)]
  congr 1
  rw [List.drop_drop]
  have hidx : i % BLOCK_SIZE + BLOCK_SIZE * (i / BLOCK_SIZE) = i := by
    simp only [BLOCK_SIZE]
    omega
  rw [hidx]
  rw [List.drop_append_of_le_length (by
    simp only [List.length_append, List.length_replicate, List.length_take,
      List.length_cons, List.length_nil, List.length_drop, BLOCK_SIZE] at *
    omega)]
  congr 1
  have htk := @List.take_append ℕ (List.replicate (BLOCK_SIZE - 1) (0 : ℕ)) X i
  rw [List.length_replicate] at htk
  rw [← htk, List.drop_take]
  congr 1
  simp only [BLOCK_SIZE]
  omega

/-- Splitting the reference block into its first fifteen bytes and the
unknown suffix byte. -/
theorem c1_ref_block_split (X : List ℕ) (i : ℕ) (hi : i < X.length) :
    ((List.replicate (BLOCK_SIZE - 1) 0 ++ X).drop i).take BLOCK_SIZE =
      ((List.replicate (BLOCK_SIZE - 1) 0 ++ X).drop i).take (BLOCK_SIZE - 1) ++
        [X.getD i 0] := by
  have hts := @List.take_succ ℕ ((List.replicate (BLOCK_SIZE - 1) (0 : ℕ) ++ X).drop i)
    (BLOCK_SIZE - 1)
  rw [show BLOCK_SIZE - 1 + 1 = BLOCK_SIZE by norm_num [BLOCK_SIZE]] at hts
  rw [hts]
  congr 1
  rw [List.getElem?_drop]
  rw [List.getElem?_append_right (by simp only [List.length_replicate, BLOCK_SIZE]; omega)]
  rw [List.length_replicate]
  rw [show i + (BLOCK_SIZE - 1) - (BLOCK_SIZE - 1) = i by omega]
  rw [getD_of_lt X i hi]
  rfl

theorem getD_mem (X : List ℕ) (i : ℕ) (h : i < X.length) : X.getD i 0 ∈ X := by
  have h2 := getD_of_lt X i h
  rw [List.getElem?_eq_getElem h] at h2
  have h3 : X.getD i 0 = X[i] := by injection h2.symm
  rw [h3]
  exact List.getElem_mem h

/-- The reference block of the suffix-window ending at `X[i]` has 16
bytes. -/
theorem c1_ref_block_len (X : List ℕ) (i : ℕ) (hi : i < X.length) :
    (((List.replicate (BLOCK_SIZE - 1) 0 ++ X).drop i).take BLOCK_SIZE).length =
      BLOCK_SIZE := by
  simp only [List.length_take, List.length_drop, List.length_append, List.length_replicate,
    BLOCK_SIZE] at *
  omega

/-- The candidate search at one suffix position of `decrypt_suffix` on
a suffix-only oracle finds exactly the true suffix byte. -/
theorem c1_find (E : List ℕ → List ℕ) (hE : BlockCipherOK E) (X : List ℕ)
    (hX : ∀ b ∈ X, b < 256) (i : ℕ) (hi : i < X.length) :
    allBytes.find? (fun u =>
      decide (slice (padOracle E [] X (List.replicate (BLOCK_SIZE - 1 - i % BLOCK_SIZE) 0))
          (0 + i / BLOCK_SIZE) =
        slice (padOracle E [] X
            (((List.replicate (BLOCK_SIZE - 1) 0 ++ X.take i) ++ [u]).drop (i % BLOCK_SIZE)))
          (0 + i / BLOCK_SIZE))) = some (X.getD i 0) := by
  have hElen := hE.len
  apply find?_eq_some_of_unique
  · unfold allBytes
    rw [List.mem_range]
    exact hX _ (getD_mem X i hi)
  · intro u
    rw [decide_eq_true_eq, Nat.zero_add, c1_ref_slice E hElen X i hi,
      c1_guess_slice E hElen X i u hi]
    constructor
    · intro h
      have hb := hE.inj _ _ (c1_ref_block_len X i hi)
        (by
          simp only [List.length_append, List.length_take, List.length_drop,
            List.length_replicate, List.length_cons, List.length_nil, BLOCK_SIZE] at *
          omega)
        h
      rw [c1_ref_block_split X i hi] at hb
      have hcc := List.append_cancel_left hb
      injection hcc with h1 h2
      exact h1.symm
    · intro h
      subst h
      rw [c1_ref_block_split X i hi]

/-- Invariant of the byte-recovery loop of `decrypt_suffix` on a
suffix-only oracle: entering position `i` with the first `i` suffix
bytes recovered, the loop returns the whole suffix. -/
theorem suffix_loop_inv (E : List ℕ → List ℕ) (hE : BlockCipherOK E) (X : List ℕ)
    (hX : ∀ b ∈ X, b < 256) (refs : List (List ℕ))
    (href : ∀ ls, ls < BLOCK_SIZE →
      refs.getD ls [] = padOracle E [] X (List.replicate (BLOCK_SIZE - 1 - ls) 0)) :
    ∀ (count i : ℕ), i + count = X.length →
      suffix_loop (padOracle E [] X) refs 0 count i
        (List.replicate (BLOCK_SIZE - 1) 0 ++ X.take i) (X.take i) = X := by
  intro count
  induction count with
  | zero =>
    intro i hic
    show X.take i = X
    rw [show i = X.length by omega, List.take_length]
  | succ count ih =>
    intro i hic
    have hi : i < X.length := by omega
    have hfind := c1_find E hE X hX i hi
    rw [suffix_loop]
    simp only [href (i % BLOCK_SIZE) (by simp only [BLOCK_SIZE]; omega)]
    rw [hfind]
    have hinp : (List.replicate (BLOCK_SIZE - 1) 0 ++ X.take i) ++ [X.getD i 0] =
        List.replicate (BLOCK_SIZE - 1) 0 ++ X.take (i + 1) := by
      rw [List.append_assoc, ← take_succ_getD X i hi]
    have hsuf : X.take i ++ [X.getD i 0] = X.take (i + 1) :=
      (take_succ_getD X i hi).symm
    show suffix_loop (padOracle E [] X) refs 0 count (i + 1)
      ((List.replicate (BLOCK_SIZE - 1) 0 ++ X.take i) ++ [X.getD i 0])
      (X.take i ++ [X.getD i 0]) = X
    rw [hinp, hsuf]
    exact ih (i + 1) (by omega)

/-- C1: `decrypt_suffix` recovers the full suffix of a deterministic
suffix-only ECB padding oracle, for a suffix of any length
(src/challenges/src/set2.rs lines 206-246). -/
theorem claim_C1 (E : List ℕ → List ℕ) (hE : BlockCipherOK E) (X : List ℕ)
    (hX : ∀ b ∈ X, b < 256) :
    decrypt_suffix (padOracle E [] X) = .ok X := by
  have h1 : pref_length (padOracle E [] X) = .ok 0 := by
    have := pref_length_padOracle E hE [] X
    simpa using this
  have h2 : suffix_length (padOracle E [] X) = .ok X.length :=
    suffix_length_padOracle E hE [] X
  unfold decrypt_suffix
  rw [h1, except_bind_ok]
  rw [h2, except_bind_ok]
  have hcd : ceil_div 0 BLOCK_SIZE = (0, 0) := by decide
  rw [hcd]
  have hstart := suffix_loop_inv E hE X hX
    ((List.range BLOCK_SIZE).map (fun ls =>
      padOracle E [] X ((List.replicate ((0, 0).2 + BLOCK_SIZE - 1) 0).drop ls)))
    (by
      intro ls hls
      rw [range_map_getD _ BLOCK_SIZE ls hls]
      rw [List.drop_replicate]
      norm_num)
    X.length 0 (by omega)
  simp only [List.take_zero, List.append_nil] at hstart
  exact congrArg Except.ok hstart

/-- Witness for C1 with the three-byte suffix `[9, 8, 200]`. -/
theorem claim_C1_witness : decrypt_suffix (padOracle idCipher [] [9, 8, 200]) = .ok [9, 8, 200] :=
  claim_C1 idCipher idCipher_ok [9, 8, 200] (by decide)

/-! ### Claim C3: behavior of decrypt_suffix when all candidates fail -/

theorem suffix_loopP_succ (enc : List ℕ → List ℕ) (refs : List (List ℕ)) (pb : ℕ)
    (n i : ℕ) (input suffix : List ℕ) :
    suffix_loopP enc refs pb (n + 1) i input suffix =
      match cand_loop enc (refs.getD (i % BLOCK_SIZE) []) (pb + i / BLOCK_SIZE)
          input (i % BLOCK_SIZE) allBytes with
      | none => DSResult.crash
      | some none => suffix_loopP enc refs pb n (i + 1) input suffix
      | some (some u) => suffix_loopP enc refs pb n (i + 1) (input ++ [u]) (suffix ++ [u]) :=
  rfl

theorem suffix_loopP_no_error (enc : List ℕ → List ℕ) (refs : List (List ℕ)) (pb : ℕ) :
    ∀ (count i : ℕ) (input suffix : List ℕ),
      (∃ v, suffix_loopP enc refs pb count i input suffix = .ok v) ∨
        suffix_loopP enc refs pb count i input suffix = .crash := by
  intro count
  induction count with
  | zero => intro i input suffix; exact Or.inl ⟨suffix, rfl⟩
  | succ n ih =>
    intro i input suffix
    rw [suffix_loopP_succ]
    cases h : cand_loop enc (refs.getD (i % BLOCK_SIZE) []) (pb + i / BLOCK_SIZE)
        input (i % BLOCK_SIZE) allBytes with
    | none =>
      right
      simp only [h]
    | some o =>
      cases o with
      | none =>
        simp only [h]
        exact ih (i + 1) input suffix
      | some u =>
        simp only [h]
        exact ih (i + 1) (input ++ [u]) (suffix ++ [u])

set_option maxRecDepth 4000 in
/-- Counterexample to C3 as stated: on `badOracle` the length probing
succeeds (there is one hidden suffix position), every one of the 256
candidate bytes falls through the target-block ciphertext comparison
at position 0 without a match and without a panic, and yet
`decrypt_suffix` returns `Ok []` — it does not return an error.  The
loop in src/challenges/src/set2.rs lines 229-244 has no fall-through
error path. -/
theorem claim_C3_cex :
    suffix_length badOracle = .ok 1 ∧
      cand_loop badOracle (badOracle (List.replicate (BLOCK_SIZE - 1) 0)) 0
        (List.replicate (BLOCK_SIZE - 1) 0) 0 allBytes = some none ∧
      decrypt_suffixP badOracle = .ok [] := by
  refine ⟨by decide, by decide, by decide⟩

/-- C3 (amended): when every candidate fails at a position,
`decrypt_suffix` does not return an error: it silently skips the
position and continues with the next one.  Once the length probing has
succeeded the function has no error return of its own at all: every
run either returns `Ok` (with only the bytes that matched) or panics
on an out-of-range ciphertext-block access, the panics being modelled
explicitly by `decrypt_suffixP`. -/
theorem claim_C3 (O : List ℕ → List ℕ) (pl t : ℕ)
    (h1 : pref_length O = .ok pl) (h2 : pref_plus_suffix_length O = .ok t) :
    (∃ v, decrypt_suffixP O = .ok v) ∨ decrypt_suffixP O = .crash := by
  have hsl : suffix_length O = .ok (t - pl) := by
    unfold suffix_length
    rw [h2, except_bind_ok, h1, except_bind_ok]
  unfold decrypt_suffixP
  simp only [h1, hsl]
  exact suffix_loopP_no_error O _ _ (t - pl) 0 _ []

/-- Witness for the amended C3, at the all-candidates-fail oracle. -/
theorem claim_C3_witness :
    (∃ v, decrypt_suffixP badOracle = .ok v) ∨ decrypt_suffixP badOracle = .crash :=
  claim_C3 badOracle 0 1 (by decide) (by decide)

/-! ### Claim C2: the interval-narrowing invariant -/

theorem ceil_quotient_le (a b q : ℤ) (hb : 0 < b) (h : a ≤ b * q) :
    ceil_quotient a b ≤ q := by
  unfold ceil_quotient
  rw [Int.ceil_le]
  have hbq : (0 : ℚ) < (b : ℚ) := by exact_mod_cast hb
  rw [div_le_iff hbq]
  rw [mul_comm]
  exact_mod_cast h

theorem le_floor_quotient (a b q : ℤ) (hb : 0 < b) (h : b * q ≤ a) :
    q ≤ floor_quotient a b := by
  unfold floor_quotient
  rw [Int.le_floor]
  have hbq : (0 : ℚ) < (b : ℚ) := by exact_mod_cast hb
  rw [le_div_iff hbq]
  rw [mul_comm]
  exact_mod_cast h

theorem mem_insertSorted (x y : ℤ × ℤ) :
    ∀ l : List (ℤ × ℤ), x ∈ insertSorted y l ↔ x = y ∨ x ∈ l := by
  intro l
  induction l with
  | nil => simp [insertSorted]
  | cons z zs ih =>
    unfold insertSorted
    by_cases h : pairLe y z = true
    · rw [if_pos h]
      simp
    · rw [if_neg h]
      rw [List.mem_cons, ih]
      simp
      tauto

theorem mem_sortPairs (x : ℤ × ℤ) : ∀ l : List (ℤ × ℤ), x ∈ sortPairs l ↔ x ∈ l := by
  intro l
  induction l with
  | nil => simp [sortPairs]
  | cons z zs ih =>
    unfold sortPairs
    rw [mem_insertSorted, ih, List.mem_cons]

theorem mem_dedupConsec (x : ℤ × ℤ) :
    ∀ l : List (ℤ × ℤ), x ∈ dedupConsec l ↔ x ∈ l
  | [] => by simp [dedupConsec]
  | [y] => by simp [dedupConsec]
  | y :: z :: r => by
    unfold dedupConsec
    by_cases h : y = z
    · rw [if_pos h, mem_dedupConsec x (z :: r)]
      subst h
      simp
    · rw [if_neg h, List.mem_cons, mem_dedupConsec x (z :: r)]
      simp

theorem mem_intRange (lo hi x : ℤ) : x ∈ intRange lo hi ↔ lo ≤ x ∧ x ≤ hi := by
  unfold intRange
  rw [List.mem_map]
  constructor
  · rintro ⟨t, ht, rfl⟩
    rw [List.mem_range] at ht
    omega
  · intro ⟨h1, h2⟩
    refine ⟨(x - lo).toNat, ?_, ?_⟩
    · rw [List.mem_range]
      omega
    · omega

/-- C2: one interval update of the Bleichenbacher engine
(src/challenges/src/set6/challenge47_48.rs lines 83-97) preserves the
invariant: given that the wrapped oracle accepted the multiplier `si`
(the decryption `m*si mod n` lies in `[2B, 3B)`), the true plaintext
integer `m` stays in the union of the new candidate set, and every new
interval is contained in some interval of the previous set (the set
never grows outward). -/
theorem claim_C2 (n B m si : ℤ) (Mprev : List (ℤ × ℤ))
    (hn : 0 < n) (_hB : 0 < B) (_hm : 0 ≤ m) (hsi : 0 < si)
    (hacc : acceptsMS n B m si)
    (hmem : memIntervals m Mprev) :
    memIntervals m (intervalStep n B si Mprev) ∧
      ∀ J ∈ intervalStep n B si Mprev, ∃ I ∈ Mprev, I.1 ≤ J.1 ∧ J.2 ≤ I.2 := by
  obtain ⟨hacc1, hacc2⟩ := hacc
  constructor
  · obtain ⟨I, hI, hIa, hIb⟩ := hmem
    obtain ⟨a, b⟩ := I
    simp only at hIa hIb
    have hmod : n * ((m * si) / n) + (m * si) % n = m * si := Int.ediv_add_emod (m * si) n
    set r := (m * si) / n with hr
    have hrn : n * r = r * n := mul_comm n r
    have hx3 : (m * si) % n ≤ 3 * B - 1 := by omega
    have hlow : 2 * B + r * n ≤ m * si := by omega
    have hhigh : m * si ≤ 3 * B - 1 + r * n := by omega
    have hasi : a * si ≤ m * si := mul_le_mul_of_nonneg_right hIa (le_of_lt hsi)
    have hbsi : m * si ≤ b * si := mul_le_mul_of_nonneg_right hIb (le_of_lt hsi)
    have hrlo : ceil_quotient (a * si - 3 * B + 1) n ≤ r :=
      ceil_quotient_le _ _ _ hn (by omega)
    have hrhi : r ≤ floor_quotient (b * si - 2 * B) n :=
      le_floor_quotient _ _ _ hn (by omega)
    have hms : m * si = si * m := mul_comm m si
    refine ⟨(max a (ceil_quotient (2 * B + r * n) si),
      min b (floor_quotient (3 * B - 1 + r * n) si)), ?_, ?_, ?_⟩
    · unfold intervalStep
      rw [mem_dedupConsec, mem_sortPairs, List.mem_flatMap]
      refine ⟨(a, b), hI, ?_⟩
      unfold intervalCandidates
      rw [List.mem_map]
      exact ⟨r, (mem_intRange _ _ _).mpr ⟨hrlo, hrhi⟩, rfl⟩
    · exact max_le hIa (ceil_quotient_le _ _ _ hsi (by omega))
    · exact le_min hIb (le_floor_quotient _ _ _ hsi (by omega))
  · intro J hJ
    unfold intervalStep at hJ
    rw [mem_dedupConsec, mem_sortPairs, List.mem_flatMap] at hJ
    obtain ⟨I, hI, hJI⟩ := hJ
    obtain ⟨a, b⟩ := I
    unfold intervalCandidates at hJI
    rw [List.mem_map] at hJI
    obtain ⟨r, _, rfl⟩ := hJI
    exact ⟨(a, b), hI, le_max_left _ _, min_le_left _ _⟩

/-- Witness for C2 on a small concrete state (n = 5, B = 1, m = 2,
s = 1, one interval [2, 2]). -/
theorem claim_C2_witness :
    acceptsMS 5 1 2 1 ∧ memIntervals 2 [((2 : ℤ), (2 : ℤ))] ∧
      (memIntervals 2 (intervalStep 5 1 1 [((2 : ℤ), (2 : ℤ))]) ∧
        ∀ J ∈ intervalStep 5 1 1 [((2 : ℤ), (2 : ℤ))],
          ∃ I ∈ [((2 : ℤ), (2 : ℤ))], I.1 ≤ J.1 ∧ J.2 ≤ I.2) := by
  refine ⟨by decide, by decide, ?_⟩
  exact claim_C2 5 1 2 1 [((2 : ℤ), (2 : ℤ))] (by decide) (by decide) (by decide)
    (by decide) (by decide) (by decide)

/-! ### Claims C8 and C10: the serialize codecs -/

theorem hexdigit_roundtrip (v : ℕ) (h : v < 16) :
    u8_from_hex (char_from_digit v) = some v := by
  interval_cases v <;> decide

theorem to_hex_cons (b : ℕ) (rest : List ℕ) :
    to_hex (b :: rest) =
      char_from_digit (b / 16) :: char_from_digit (b % 16) :: to_hex rest := by
  simp [to_hex]

theorem to_hex_length (u : List ℕ) : (to_hex u).length = 2 * u.length := by
  induction u with
  | nil => rfl
  | cons b rest ih =>
    rw [to_hex_cons]
    simp only [List.length_cons, ih]
    omega

theorem parseDigits_to_hex (u : List ℕ) (h : ∀ b ∈ u, b < 256) (e : String) :
    parseDigits u8_from_hex e (to_hex u) =
      .ok (u.flatMap (fun x => [x / 16, x % 16])) := by
  induction u with
  | nil => rfl
  | cons b rest ih =>
    have hb : b < 256 := h b (by simp)
    rw [to_hex_cons]
    unfold parseDigits
    rw [hexdigit_roundtrip (b / 16) (by omega)]
    unfold parseDigits
    rw [hexdigit_roundtrip (b % 16) (by omega)]
    rw [ih (fun x hx => h x (by simp [hx]))]
    simp

theorem hex_chunks_decode (u : List ℕ) (h : ∀ b ∈ u, b < 256) :
    (chunks 2 (u.flatMap (fun x => [x / 16, x % 16]))).map
      (fun c => c.getD 0 0 * 16 + c.getD 1 0) = u := by
  induction u with
  | nil => rfl
  | cons b rest ih =>
    have hb : b < 256 := h b (by simp)
    have hfl : (b :: rest).flatMap (fun x => [x / 16, x % 16]) =
        b / 16 :: b % 16 :: rest.flatMap (fun x => [x / 16, x % 16]) := by
      simp
    rw [hfl, chunks_cons]
    simp only [List.take_cons, List.drop_succ_cons, List.drop_zero, List.take_nil,
      List.take_zero, List.drop_nil]
    rw [List.map_cons]
    rw [ih (fun x hx => h x (by simp [hx]))]
    simp only [List.getD]
    congr 1
    simp
    omega

/-- The hex round trip: `from_hex (to_hex u) = Ok u` for every byte
sequence. -/
theorem from_hex_to_hex (u : List ℕ) (h : ∀ b ∈ u, b < 256) :
    from_hex (to_hex u) = .ok u := by
  unfold from_hex
  rw [if_neg (by rw [to_hex_length]; omega)]
  rw [parseDigits_to_hex u h]
  show Except.ok ((chunks 2 (u.flatMap (fun x => [x / 16, x % 16]))).map
    (fun c => c.getD 0 0 * 16 + c.getD 1 0)) = Except.ok u
  rw [hex_chunks_decode u h]

theorem u8_to_base64_ne_pad (v : ℕ) : u8_to_base64 v ≠ '=' := by
  unfold u8_to_base64
  by_cases h : v < 64
  · interval_cases v <;> decide
  · rw [List.getD_eq_default _ _ (by simp [TO_BASE64]; omega)]
    decide

theorem b64digit_roundtrip (v : ℕ) (h : v ≤ 63) :
    u8_from_base64 (u8_to_base64 v) = some v := by
  interval_cases v <;> decide

theorem parseDigits_append (f : Char → Option ℕ) (e : String) :
    ∀ (A B : List Char) (dA dB : List ℕ),
      parseDigits f e A = .ok dA → parseDigits f e B = .ok dB →
      parseDigits f e (A ++ B) = .ok (dA ++ dB) := by
  intro A
  induction A with
  | nil =>
    intro B dA dB hA hB
    injection hA with h
    subst h
    simpa using hB
  | cons c cs ih =>
    intro B dA dB hA hB
    unfold parseDigits at hA ⊢
    cases hf : f c with
    | none =>
      rw [hf] at hA
      exact absurd hA (by simp)
    | some d =>
      rw [hf] at hA
      cases hcs : parseDigits f e cs with
      | error e2 =>
        rw [hcs] at hA
        exact absurd hA (by simp)
      | ok r =>
        rw [hcs] at hA
        injection hA with h
        subst h
        rw [List.cons_append]
        have hih := ih B r dB hcs hB
        show (match f c with
          | none => Except.error e
          | some d2 =>
            match parseDigits f e (cs ++ B) with
            | Except.ok r2 => Except.ok (d2 :: r2)
            | Except.error e2 => Except.error e2) = Except.ok ((d :: r) ++ dB)
        simp only [hf, hih]
        simp

theorem b64_base_split : ∀ u : List ℕ,
    ((chunks 3 u).map block_to_base64).flatten =
      b64Chars u ++ (if u.length % 3 = 1 then [u8_to_base64 0, u8_to_base64 0]
        else if u.length % 3 = 2 then [u8_to_base64 0] else [])
  | [] => by simp [chunks_nil, b64Chars]
  | [a] => by
    simp only [List.length_singleton]
    rw [chunks_cons]
    norm_num
    simp [b64Chars, block_to_base64, chunks_nil]
  | [a, b] => by
    simp only [List.length_cons, List.length_singleton]
    rw [chunks_cons]
    norm_num
    simp [b64Chars, block_to_base64, chunks_nil]
  | a :: b :: c :: rest => by
    have h3 : (a :: b :: c :: rest).length % 3 = rest.length % 3 := by
      simp only [List.length_cons]
      omega
    rw [h3, chunks_cons]
    have htk : (a :: b :: c :: rest).take 3 = [a, b, c] := by simp
    have hdr : (b :: c :: rest).drop 2 = rest := by simp
    rw [htk, hdr, List.map_cons, List.flatten_cons, b64_base_split rest]
    show block_to_base64 [a, b, c] ++ (b64Chars rest ++ _) = b64Chars (a :: b :: c :: rest) ++ _
    rw [← List.append_assoc]
    rfl

theorem to_base64_mod0 (u : List ℕ) (h : u.length % 3 = 0) :
    to_base64 u = b64Chars u := by
  unfold to_base64
  rw [if_neg (by omega), if_neg (by omega), b64_base_split u]
  rw [if_neg (by omega), if_neg (by omega)]
  simp

theorem to_base64_mod1 (u : List ℕ) (h : u.length % 3 = 1) :
    to_base64 u = b64Chars u ++ ['=', '='] := by
  unfold to_base64
  rw [if_pos h, b64_base_split u, if_pos h]
  have hsplit : b64Chars u ++ [u8_to_base64 0, u8_to_base64 0] =
      (b64Chars u ++ [u8_to_base64 0]) ++ [u8_to_base64 0] := by
    rw [List.append_assoc]
    rfl
  rw [hsplit, List.dropLast_concat, List.dropLast_concat]

theorem to_base64_mod2 (u : List ℕ) (h : u.length % 3 = 2) :
    to_base64 u = b64Chars u ++ ['='] := by
  unfold to_base64
  rw [if_neg (by omega), if_pos h, b64_base_split u]
  rw [if_neg (by omega), if_pos h]
  rw [List.dropLast_concat]

theorem b64Chars_length : ∀ u : List ℕ,
    (b64Chars u).length = u.length / 3 * 4 +
      (if u.length % 3 = 1 then 2 else if u.length % 3 = 2 then 3 else 0)
  | [] => by simp [b64Chars]
  | [a] => by simp [b64Chars]
  | [a, b] => by simp [b64Chars]
  | a :: b :: c :: rest => by
    show (block_to_base64 [a, b, c] ++ b64Chars rest).length = _
    rw [List.length_append, b64Chars_length rest]
    have hlen : (a :: b :: c :: rest).length = rest.length + 3 := by simp
    rw [hlen]
    have hb : (block_to_base64 [a, b, c]).length = 4 := by simp [block_to_base64]
    rw [hb]
    have h3 : (rest.length + 3) % 3 = rest.length % 3 := by omega
    rw [h3]
    have hd : (rest.length + 3) / 3 = rest.length / 3 + 1 := by omega
    rw [hd]
    omega

theorem b64Chars_ne_pad : ∀ (u : List ℕ) (c : Char), c ∈ b64Chars u → c ≠ '='
  | [], c => by simp [b64Chars]
  | [a], c => by
    intro hc
    simp [b64Chars] at hc
    rcases hc with h | h <;> (subst h; exact u8_to_base64_ne_pad _)
  | [a, b], c => by
    intro hc
    simp [b64Chars] at hc
    rcases hc with h | h | h <;> (subst h; exact u8_to_base64_ne_pad _)
  | a :: b :: cc :: rest, c => by
    intro hc
    have hc2 : c ∈ block_to_base64 [a, b, cc] ++ b64Chars rest := hc
    rw [List.mem_append] at hc2
    rcases hc2 with h | h
    · simp [block_to_base64] at h
      rcases h with h | h | h | h <;> (subst h; exact u8_to_base64_ne_pad _)
    · exact b64Chars_ne_pad rest c h

theorem parse_b64Chars : ∀ (u : List ℕ), (∀ b ∈ u, b < 256) → ∀ e : String,
    parseDigits u8_from_base64 e (b64Chars u) = .ok (b64Digits u)
  | [], _ => by intro e; rfl
  | [a], h => by
    intro e
    have ha : a < 256 := h a (by simp)
    show parseDigits u8_from_base64 e [u8_to_base64 (a / 4), u8_to_base64 (a % 4 * 16)] = _
    unfold parseDigits
    rw [b64digit_roundtrip (a / 4) (by omega)]
    unfold parseDigits
    rw [b64digit_roundtrip (a % 4 * 16) (by omega)]
    rfl
  | [a, b], h => by
    intro e
    have ha : a < 256 := h a (by simp)
    have hb : b < 256 := h b (by simp)
    show parseDigits u8_from_base64 e [u8_to_base64 (a / 4),
      u8_to_base64 (a % 4 * 16 + b / 16), u8_to_base64 (b % 16 * 4)] = _
    unfold parseDigits
    rw [b64digit_roundtrip (a / 4) (by omega)]
    unfold parseDigits
    rw [b64digit_roundtrip (a % 4 * 16 + b / 16) (by omega)]
    unfold parseDigits
    rw [b64digit_roundtrip (b % 16 * 4) (by omega)]
    rfl
  | a :: b :: c :: rest, h => by
    intro e
    have ha : a < 256 := h a (by simp)
    have hb : b < 256 := h b (by simp)
    have hc : c < 256 := h c (by simp)
    have hblock : parseDigits u8_from_base64 e (block_to_base64 [a, b, c]) =
        .ok [a / 4, a % 4 * 16 + b / 16, b % 16 * 4 + c / 64, c % 64] := by
      show parseDigits u8_from_base64 e [u8_to_base64 (a / 4),
        u8_to_base64 (a % 4 * 16 + b / 16), u8_to_base64 (b % 16 * 4 + c / 64),
        u8_to_base64 (c % 64)] = _
      unfold parseDigits
      rw [b64digit_roundtrip (a / 4) (by omega)]
      unfold parseDigits
      rw [b64digit_roundtrip (a % 4 * 16 + b / 16) (by omega)]
      unfold parseDigits
      rw [b64digit_roundtrip (b % 16 * 4 + c / 64) (by omega)]
      unfold parseDigits
      rw [b64digit_roundtrip (c % 64) (by omega)]
      rfl
    have hrest := parse_b64Chars rest (fun x hx => h x (by simp [hx])) e
    show parseDigits u8_from_base64 e (block_to_base64 [a, b, c] ++ b64Chars rest) = _
    rw [parseDigits_append u8_from_base64 e _ _ _ _ hblock hrest]
    rfl

theorem decode_b64Digits : ∀ (u : List ℕ), (∀ b ∈ u, b < 256) →
    b64DecodeChunks (chunks 4 (b64Digits u)) = .ok u
  | [], _ => by rfl
  | [a], h => by
    have ha : a < 256 := h a (by simp)
    have hch : chunks 4 (b64Digits [a]) = [[a / 4, a % 4 * 16]] := by
      show chunks 4 [a / 4, a % 4 * 16] = _
      rw [chunks_cons]
      simp [chunks_nil]
    rw [hch]
    show (if (a % 4 * 16 * 16) % 256 ≠ 0 then B64Result.error "input not padded with zero"
      else B64Result.ok [(a / 4 * 4) % 256 + a % 4 * 16 / 16]) = B64Result.ok [a]
    rw [if_neg (by omega)]
    congr 1
    have : (a / 4 * 4) % 256 + a % 4 * 16 / 16 = a := by omega
    rw [this]
  | [a, b], h => by
    have ha : a < 256 := h a (by simp)
    have hb : b < 256 := h b (by simp)
    have hch : chunks 4 (b64Digits [a, b]) =
        [[a / 4, a % 4 * 16 + b / 16, b % 16 * 4]] := by
      show chunks 4 [a / 4, a % 4 * 16 + b / 16, b % 16 * 4] = _
      rw [chunks_cons]
      simp [chunks_nil]
    rw [hch]
    show (if (b % 16 * 4 * 64) % 256 ≠ 0 then B64Result.error "input not padded with zero"
      else B64Result.ok [(a / 4 * 4) % 256 + (a % 4 * 16 + b / 16) / 16,
        ((a % 4 * 16 + b / 16) * 16) % 256 + b % 16 * 4 / 4]) = B64Result.ok [a, b]
    rw [if_neg (by omega)]
    congr 1
    have h1 : (a / 4 * 4) % 256 + (a % 4 * 16 + b / 16) / 16 = a := by omega
    have h2 : ((a % 4 * 16 + b / 16) * 16) % 256 + b % 16 * 4 / 4 = b := by omega
    rw [h1, h2]
  | a :: b :: c :: rest, h => by
    have ha : a < 256 := h a (by simp)
    have hb : b < 256 := h b (by simp)
    have hc : c < 256 := h c (by simp)
    have hch : chunks 4 (b64Digits (a :: b :: c :: rest)) =
        [a / 4, a % 4 * 16 + b / 16, b % 16 * 4 + c / 64, c % 64] ::
          chunks 4 (b64Digits rest) := by
      show chunks 4 (a / 4 :: (a % 4 * 16 + b / 16) :: (b % 16 * 4 + c / 64) ::
        c % 64 :: b64Digits rest) = _
      rw [chunks_cons]
      simp
    rw [hch]
    have hrest := decode_b64Digits rest (fun x hx => h x (by simp [hx]))
    show (match b64DecodeChunks (chunks 4 (b64Digits rest)) with
      | B64Result.ok u => B64Result.ok (((a / 4 * 4) % 256 + (a % 4 * 16 + b / 16) / 16) ::
          (((a % 4 * 16 + b / 16) * 16) % 256 + (b % 16 * 4 + c / 64) / 4) ::
          (((b % 16 * 4 + c / 64) * 64) % 256 + c % 64) :: u)
      | r => r) = B64Result.ok (a :: b :: c :: rest)
    rw [hrest]
    have h1 : (a / 4 * 4) % 256 + (a % 4 * 16 + b / 16) / 16 = a := by omega
    have h2 : ((a % 4 * 16 + b / 16) * 16) % 256 + (b % 16 * 4 + c / 64) / 4 = b := by omega
    have h3 : ((b % 16 * 4 + c / 64) * 64) % 256 + c % 64 = c := by omega
    show B64Result.ok _ = _
    rw [h1, h2, h3]

theorem getD_mem_gen {α : Type} (l : List α) (i : ℕ) (d : α) (h : i < l.length) :
    l.getD i d ∈ l := by
  rw [List.getD_eq_getElem?_getD, List.getElem?_eq_getElem h]
  exact List.getElem_mem h

/-- Counterexample to C8 as stated: the empty byte sequence encodes to
the empty string, on which `from_base64` panics (`s.as_bytes()[n - 1]`
with `n = 0`), so the round trip does not return `Ok([])`. -/
theorem claim_C8_cex :
    from_base64 (to_base64 []) = .crash ∧ from_base64 (to_base64 []) ≠ .ok [] := by
  refine ⟨by decide, by decide⟩

/-- C8 (amended): the hex round trip is the identity on every byte
sequence, and the base64 round trip is the identity on every nonempty
byte sequence (src/serialize/src/lib.rs); on the empty sequence
`from_base64` panics instead of returning `Ok([])`. -/
theorem claim_C8 (u : List ℕ) (hu : ∀ b ∈ u, b < 256) :
    from_hex (to_hex u) = .ok u ∧
      (u ≠ [] → from_base64 (to_base64 u) = .ok u) := by
  refine ⟨from_hex_to_hex u hu, ?_⟩
  intro hne
  have h0 : u.length ≠ 0 := fun hc => hne (List.length_eq_zero.mp hc)
  rcases (by omega : u.length % 3 = 0 ∨ u.length % 3 = 1 ∨ u.length % 3 = 2)
    with h3 | h3 | h3
  · -- no padding characters
    rw [to_base64_mod0 u h3]
    have hL := b64Chars_length u
    rw [if_neg (by omega), if_neg (by omega)] at hL
    have hlen3 : 3 ≤ u.length := by omega
    unfold from_base64
    rw [if_neg (by omega)]
    rw [if_neg (by
      intro hcon
      rw [hcon] at hL
      simp at hL
      omega)]
    have htrim : b64Trim (b64Chars u) = (b64Chars u).length := by
      unfold b64Trim
      rw [if_neg (b64Chars_ne_pad u _ (getD_mem_gen _ _ _ (by omega)))]
    rw [htrim, List.take_length, parse_b64Chars u hu]
    show b64DecodeChunks (chunks 4 (b64Digits u)) = .ok u
    exact decode_b64Digits u hu
  · -- two padding characters
    rw [to_base64_mod1 u h3]
    have hL := b64Chars_length u
    rw [if_pos h3] at hL
    have hslen : (b64Chars u ++ ['=', '=']).length = (b64Chars u).length + 2 := by
      simp
    unfold from_base64
    rw [if_neg (by rw [hslen]; omega)]
    rw [if_neg (by simp)]
    have htrim : b64Trim (b64Chars u ++ ['=', '=']) = (b64Chars u).length := by
      unfold b64Trim
      have hi1 : (b64Chars u ++ ['=', '=']).length - 1 = (b64Chars u).length + 1 := by
        rw [hslen]
        omega
      have hi2 : (b64Chars u ++ ['=', '=']).length - 2 = (b64Chars u).length := by
        rw [hslen]
        omega
      have hg1 : (b64Chars u ++ ['=', '=']).getD ((b64Chars u ++ ['=', '=']).length - 1)
          ' ' = '=' := by
        rw [hi1, List.getD_eq_getElem?_getD,
          List.getElem?_append_right (by omega)]
        rw [show (b64Chars u).length + 1 - (b64Chars u).length = 1 by omega]
        rfl
      have hg2 : (b64Chars u ++ ['=', '=']).getD ((b64Chars u ++ ['=', '=']).length - 2)
          ' ' = '=' := by
        rw [hi2, List.getD_eq_getElem?_getD,
          List.getElem?_append_right (by omega)]
        rw [show (b64Chars u).length - (b64Chars u).length = 0 by omega]
        rfl
      rw [if_pos hg1, if_pos hg2, hi2]
    rw [htrim, List.take_left, parse_b64Chars u hu]
    show b64DecodeChunks (chunks 4 (b64Digits u)) = .ok u
    exact decode_b64Digits u hu
  · -- one padding character
    rw [to_base64_mod2 u h3]
    have hL := b64Chars_length u
    rw [if_neg (by omega), if_pos h3] at hL
    have hslen : (b64Chars u ++ ['=']).length = (b64Chars u).length + 1 := by
      simp
    unfold from_base64
    rw [if_neg (by rw [hslen]; omega)]
    rw [if_neg (by simp)]
    have htrim : b64Trim (b64Chars u ++ ['=']) = (b64Chars u).length := by
      unfold b64Trim
      have hi1 : (b64Chars u ++ ['=']).length - 1 = (b64Chars u).length := by
        rw [hslen]
        omega
      have hi2 : (b64Chars u ++ ['=']).length - 2 = (b64Chars u).length - 1 := by
        rw [hslen]
        omega
      have hg1 : (b64Chars u ++ ['=']).getD ((b64Chars u ++ ['=']).length - 1) ' ' = '=' := by
        rw [hi1, List.getD_eq_getElem?_getD,
          List.getElem?_append_right (by omega)]
        rw [show (b64Chars u).length - (b64Chars u).length = 0 by omega]
        rfl
      have hg2 : (b64Chars u ++ ['=']).getD ((b64Chars u ++ ['=']).length - 2) ' ' ≠ '=' := by
        rw [hi2, List.getD_eq_getElem?_getD,
          List.getElem?_append_left (by omega)]
        rw [← List.getD_eq_getElem?_getD]
        exact b64Chars_ne_pad u _ (getD_mem_gen _ _ _ (by omega))
      rw [if_pos hg1, if_neg hg2, hi1]
    rw [htrim, List.take_left, parse_b64Chars u hu]
    show b64DecodeChunks (chunks 4 (b64Digits u)) = .ok u
    exact decode_b64Digits u hu

/-- Witness for C8 with the bytes `[77, 97, 110]` and `[255]`. -/
theorem claim_C8_witness :
    from_hex (to_hex [255]) = .ok [255] ∧
      from_base64 (to_base64 [77, 97, 110]) = .ok [77, 97, 110] :=
  ⟨(claim_C8 [255] (by decide)).1,
    (claim_C8 [77, 97, 110] (by decide)).2 (by decide)⟩

theorem parseDigits_error_of_none (f : Char → Option ℕ) (e : String) :
    ∀ l : List Char, (∃ c ∈ l, f c = none) → parseDigits f e l = .error e := by
  intro l
  induction l with
  | nil => intro ⟨c, hc, _⟩; simp at hc
  | cons a as ih =>
    intro ⟨c, hc, hnone⟩
    unfold parseDigits
    rcases List.mem_cons.mp hc with h | h
    · subst h
      rw [hnone]
    · cases hf : f a with
      | none => rfl
      | some d =>
        rw [ih ⟨c, h, hnone⟩]

theorem from_base64_table_chars : ∀ p ∈ FROM_BASE64, p.2 ∈ TO_BASE64 := by decide

theorem u8_from_base64_none_of_not_mem (c : Char) (hc : c ∉ TO_BASE64) :
    u8_from_base64 c = none := by
  unfold u8_from_base64
  rw [List.find?_eq_none.mpr]
  · rfl
  · intro p hp
    simp only [decide_eq_true_eq]
    intro he
    exact hc (he ▸ from_base64_table_chars p hp)

theorem b64Decode_short2_err (b0 b1 : ℕ) (h : (b1 * 16) % 256 ≠ 0) :
    b64DecodeChunks [[b0, b1]] = .error "input not padded with zero" := by
  show (if (b1 * 16) % 256 ≠ 0 then B64Result.error "input not padded with zero"
    else B64Result.ok [(b0 * 4) % 256 + b1 / 16]) = _
  rw [if_pos h]

theorem b64Decode_short3_err (b0 b1 b2 : ℕ) (h : (b2 * 64) % 256 ≠ 0) :
    b64DecodeChunks [[b0, b1, b2]] = .error "input not padded with zero" := by
  show (if (b2 * 64) % 256 ≠ 0 then B64Result.error "input not padded with zero"
    else B64Result.ok [(b0 * 4) % 256 + b1 / 16, (b1 * 16) % 256 + b2 / 4]) = _
  rw [if_pos h]

theorem b64Decode_err_prop (e : String) :
    ∀ (pre : List (List ℕ)) (cs : List (List ℕ)),
      (∀ q ∈ pre, ∃ q0 q1 q2 q3, q = [q0, q1, q2, q3]) →
      b64DecodeChunks cs = .error e → b64DecodeChunks (pre ++ cs) = .error e := by
  intro pre
  induction pre with
  | nil => intro cs _ h; simpa using h
  | cons q pre ih =>
    intro cs hq h
    obtain ⟨q0, q1, q2, q3, rfl⟩ := hq q (by simp)
    have hrest := ih cs (fun r hr => hq r (by simp [hr])) h
    show (match b64DecodeChunks (pre ++ cs) with
      | B64Result.ok u => B64Result.ok (((q0 * 4) % 256 + q1 / 16) ::
          ((q1 * 16) % 256 + q2 / 4) :: ((q2 * 64) % 256 + q3) :: u)
      | r => r) = B64Result.error e
    rw [hrest]

/-- Counterexample to C10 as stated: the input `QQ==` contains the
character `=`, which is outside the 64-character base64 alphabet, yet
`from_base64` returns a value, not an error (trailing `=` padding is
stripped before digit parsing). -/
theorem claim_C10_cex :
    (∃ c ∈ ['Q', 'Q', '=', '='], c ∉ TO_BASE64) ∧
      from_base64 ['Q', 'Q', '=', '='] = .ok [65] := by
  refine ⟨by decide, by decide⟩

/-- C10 (amended): `from_base64` returns an error (never a value, never
a panic) for every input whose length is not a multiple of 4; for every
nonempty input containing, before the stripped trailing `=` padding, a
character outside the base64 alphabet; and for every input whose
discarded padding bits are nonzero (a short final digit chunk failing
the zero-bits check).  Trailing `=` padding characters themselves are
accepted. -/
theorem claim_C10 (s : List Char) (ds : List ℕ) (pre : List (List ℕ)) (b0 b1 b2 : ℕ) :
    (s.length % 4 ≠ 0 → from_base64 s = .error "input length needs to be multiple of 4") ∧
    (s.length % 4 = 0 → s ≠ [] →
      (∃ c ∈ s.take (b64Trim s), c ∉ TO_BASE64) →
      from_base64 s = .error "not a valid base64 string") ∧
    (s.length % 4 = 0 → s ≠ [] →
      parseDigits u8_from_base64 "not a valid base64 string" (s.take (b64Trim s)) = .ok ds →
      (∀ q ∈ pre, ∃ q0 q1 q2 q3, q = [q0, q1, q2, q3]) →
      chunks 4 ds = pre ++ [[b0, b1]] → (b1 * 16) % 256 ≠ 0 →
      from_base64 s = .error "input not padded with zero") ∧
    (s.length % 4 = 0 → s ≠ [] →
      parseDigits u8_from_base64 "not a valid base64 string" (s.take (b64Trim s)) = .ok ds →
      (∀ q ∈ pre, ∃ q0 q1 q2 q3, q = [q0, q1, q2, q3]) →
      chunks 4 ds = pre ++ [[b0, b1, b2]] → (b2 * 64) % 256 ≠ 0 →
      from_base64 s = .error "input not padded with zero") := by
  refine ⟨?_, ?_, ?_, ?_⟩
  · intro h
    unfold from_base64
    rw [if_pos h]
  · intro h4 hne ⟨c, hc, hout⟩
    unfold from_base64
    rw [if_neg (by omega), if_neg hne]
    rw [parseDigits_error_of_none _ _ _ ⟨c, hc, u8_from_base64_none_of_not_mem c hout⟩]
  · intro h4 hne hparse hpre hchunks hbad
    unfold from_base64
    rw [if_neg (by omega), if_neg hne, hparse]
    show b64DecodeChunks (chunks 4 ds) = _
    rw [hchunks]
    exact b64Decode_err_prop _ pre _ hpre (b64Decode_short2_err b0 b1 hbad)
  · intro h4 hne hparse hpre hchunks hbad
    unfold from_base64
    rw [if_neg (by omega), if_neg hne, hparse]
    show b64DecodeChunks (chunks 4 ds) = _
    rw [hchunks]
    exact b64Decode_err_prop _ pre _ hpre (b64Decode_short3_err b0 b1 b2 hbad)

/-- Witness for C10, exercising all four error paths on concrete
inputs. -/
theorem claim_C10_witness :
    from_base64 ['Q'] = .error "input length needs to be multiple of 4" ∧
    from_base64 ['Q', '!', 'Q', 'Q'] = .error "not a valid base64 string" ∧
    from_base64 ['Q', 'R', '=', '='] = .error "input not padded with zero" ∧
    from_base64 ['Q', 'Q', 'R', '='] = .error "input not padded with zero" := by
  refine ⟨?_, ?_, ?_, ?_⟩
  · exact (claim_C10 ['Q'] [] [] 0 0 0).1 (by decide)
  · exact (claim_C10 ['Q', '!', 'Q', 'Q'] [] [] 0 0 0).2.1 (by decide) (by decide) (by decide)
  · exact (claim_C10 ['Q', 'R', '=', '='] [16, 17] [] 16 17 0).2.2.1 (by decide) (by decide)
      (by decide) (by intro q hq; simp at hq) (by decide) (by decide)
  · exact (claim_C10 ['Q', 'Q', 'R', '='] [16, 16, 17] [] 16 16 17).2.2.2 (by decide)
      (by decide) (by decide) (by intro q hq; simp at hq) (by decide) (by decide)

end Cryptopals
